import Mathlib

/-!
Verification of the TaggedBase64 codec (EspressoSystems/tagged-base64).

The codec is embedded shallowly: bytes are natural numbers below 256, byte
sequences are lists, and the Rust functions `calc_checksum`, `new`, `parse`,
`to_string`, `set_tag`, `set_value`, `encode_raw`, `decode_raw` from
`src/lib.rs` are translated into executable Lean definitions.  A Rust panic
(the `assert!` in `set_tag`, or an out-of-bounds index in `parse`) is
modelled by `Option`: `none` stands for an abort.
-/

deriving instance DecidableEq for Except

namespace TB64

/-! ## UTF-8 byte representation of strings -/

/-- UTF-8 encoding of a single character, as the list of its bytes.
Mirrors the byte representation Rust's `str::as_bytes` exposes. -/
def utf8Bytes (c : Char) : List Nat :=
  let n := c.toNat
  if n < 128 then [n]
  else if n < 2048 then [192 + n / 64, 128 + n % 64]
  else if n < 65536 then [224 + n / 4096, 128 + (n / 64) % 64, 128 + n % 64]
  else [240 + n / 262144, 128 + (n / 4096) % 64, 128 + (n / 64) % 64, 128 + n % 64]

/-- UTF-8 bytes of a list of characters. -/
def utf8ListBytes (cs : List Char) : List Nat :=
  cs.foldr (fun c acc => utf8Bytes c ++ acc) []

/-- UTF-8 bytes of a string. -/
def strBytes (s : String) : List Nat := utf8ListBytes s.data

/-! ## CRC-8

`crc_any::CRC::crc8()` is the plain CRC-8: polynomial 0x07, initial value 0,
no reflection, no final xor.  One update step shifts the state left by one
bit and xors in the polynomial when the former top bit was set. -/

/-- One CRC-8 bit step on an 8-bit state. -/
def crcStep (s : Nat) : Nat :=
  if s &&& 128 = 0 then (s * 2) % 256 else ((s * 2) ^^^ 7) % 256

/-- Eight CRC-8 bit steps. -/
def crcSteps8 (s : Nat) : Nat :=
  crcStep (crcStep (crcStep (crcStep (crcStep (crcStep (crcStep (crcStep s)))))))

/-- Absorb one input byte into the CRC-8 state. -/
def crc8UpdateByte (s b : Nat) : Nat := crcSteps8 (s ^^^ b)

/-- `CRC::digest`: absorb a byte sequence into the CRC-8 state. -/
def crc8Digest (s : Nat) (bs : List Nat) : Nat := bs.foldl crc8UpdateByte s

/-- `TaggedBase64::calc_checksum` from `src/lib.rs`: feed the tag bytes and
then the value bytes into a fresh CRC-8 digest, and xor the CRC with the low
byte of the value length. -/
def calc_checksum (tag : String) (value : List Nat) : Nat :=
  (crc8Digest (crc8Digest 0 (strBytes tag)) value) ^^^ (value.length % 256)

/-! ## URL-safe base64, no padding -/

/-- The URL-safe base64 alphabet, in order. -/
def urlAlphabet : List Char :=
  "ABCDEFGHIJKLMNOPQRSTUVWXYZabcdefghijklmnopqrstuvwxyz0123456789-_".data

/-- The URL-safe base64 alphabet as bytes. -/
def alphabetBytes : List Nat := urlAlphabet.map Char.toNat

/-- Index of the first occurrence of `b` in a list. -/
def lookupIdx (b : Nat) : List Nat → Option Nat
  | [] => none
  | x :: xs => if x = b then some 0 else (lookupIdx b xs).map (· + 1)

/-- Index of a byte in the base64 alphabet (`none` when the byte is not an
alphabet byte).  This is the decode-table lookup of the base64 crate. -/
def b64MorselByte (b : Nat) : Option Nat :=
  lookupIdx b alphabetBytes

/-- One alphabet byte, by 6-bit index. -/
def aByte (n : Nat) : Nat := alphabetBytes.getD n 0

/-- Base64 encoding (URL-safe alphabet, no padding) of a byte sequence,
producing the sequence of alphabet bytes.  Groups of three input bytes give
four symbols; a final group of one or two bytes gives two or three symbols
whose unused low bits are zero. -/
def encodeBytes : List Nat → List Nat
  | [] => []
  | [a] => [aByte (a / 4), aByte ((a % 4) * 16)]
  | [a, b] => [aByte (a / 4), aByte ((a % 4) * 16 + b / 16), aByte ((b % 16) * 4)]
  | a :: b :: c :: rest =>
    aByte (a / 4) :: aByte ((a % 4) * 16 + b / 16) ::
      aByte ((b % 16) * 4 + c / 64) :: aByte (c % 64) :: encodeBytes rest

/-- `TaggedBase64::encode_raw`: the base64 string of a byte sequence. -/
def encode_raw (input : List Nat) : String :=
  ⟨(encodeBytes input).map Char.ofNat⟩

/-- The error type of the base64 crate's decoder (`base64::DecodeError`). -/
inductive DecodeError
  | InvalidByte (offset : Nat) (byte : Nat)
  | InvalidLength
  | InvalidLastSymbol (offset : Nat) (byte : Nat)
deriving DecidableEq, Repr

/-- Decode a run of base64 symbols, starting at byte offset `off` of the
input.  Symbols are scanned left to right; the first byte outside the
alphabet is reported as `InvalidByte`.  A final group of two or three
symbols must have zero unused low bits in its last symbol, otherwise
`InvalidLastSymbol` is reported there. -/
def decodeGroups : List Nat → Nat → Except DecodeError (List Nat)
  | [], _ => .ok []
  | [_], _ => .error .InvalidLength
  | [a, b], off =>
    match b64MorselByte a, b64MorselByte b with
    | none, _ => .error (.InvalidByte off a)
    | some _, none => .error (.InvalidByte (off + 1) b)
    | some ma, some mb =>
      if mb % 16 = 0 then .ok [ma * 4 + mb / 16]
      else .error (.InvalidLastSymbol (off + 1) b)
  | [a, b, c], off =>
    match b64MorselByte a, b64MorselByte b, b64MorselByte c with
    | none, _, _ => .error (.InvalidByte off a)
    | some _, none, _ => .error (.InvalidByte (off + 1) b)
    | some _, some _, none => .error (.InvalidByte (off + 2) c)
    | some ma, some mb, some mc =>
      if mc % 4 = 0 then .ok [ma * 4 + mb / 16, (mb % 16) * 16 + mc / 4]
      else .error (.InvalidLastSymbol (off + 2) c)
  | a :: b :: c :: d :: rest, off =>
    match b64MorselByte a, b64MorselByte b, b64MorselByte c, b64MorselByte d with
    | none, _, _, _ => .error (.InvalidByte off a)
    | some _, none, _, _ => .error (.InvalidByte (off + 1) b)
    | some _, some _, none, _ => .error (.InvalidByte (off + 2) c)
    | some _, some _, some _, none => .error (.InvalidByte (off + 3) d)
    | some ma, some mb, some mc, some md =>
      match decodeGroups rest (off + 4) with
      | .error e => .error e
      | .ok tail =>
        .ok ([ma * 4 + mb / 16, (mb % 16) * 16 + mc / 4, (mc % 4) * 64 + md] ++ tail)

/-- The base64 crate's decode for the URL-safe unpadded configuration, over
the UTF-8 bytes of the input.  An input whose length is 1 mod 4 can never be
a valid unpadded encoding: it is rejected up front, as `InvalidByte` when
its last byte is already outside the alphabet and as `InvalidLength`
otherwise.  Padding characters are not part of this alphabet and are
reported as invalid bytes, matching the no-padding engine configuration. -/
def decode_config (bs : List Nat) : Except DecodeError (List Nat) :=
  if bs.length % 4 = 1 then
    match bs.getLast? with
    | some b =>
      if (b64MorselByte b).isNone then .error (.InvalidByte (bs.length - 1) b)
      else .error .InvalidLength
    | none => .error .InvalidLength
  else decodeGroups bs 0

/-! ## The TaggedBase64 codec -/

/-- The error enumeration `Tb64Error` of `src/lib.rs`, with the classified
base64 decoding errors of `TaggedBase64::decode_raw`. -/
inductive Tb64Error
  | InvalidTag
  | MissingDelimiter
  | MissingChecksum
  | InvalidByte (offset : Nat) (byte : Nat)
  | InvalidLastSymbol (offset : Nat) (byte : Nat)
  | InvalidLength
  | InvalidChecksum
  | InvalidData
deriving DecidableEq, Repr

/-- `TaggedBase64::decode_raw`: run the base64 decoder and translate its
error into `Tb64Error`, keeping the classification. -/
def decode_raw (bs : List Nat) : Except Tb64Error (List Nat) :=
  match decode_config bs with
  | .ok v => .ok v
  | .error (.InvalidByte offset byte) => .error (.InvalidByte offset byte)
  | .error .InvalidLength => .error .InvalidLength
  | .error (.InvalidLastSymbol offset byte) => .error (.InvalidLastSymbol offset byte)

/-- The `TaggedBase64` record: a tag, a byte value, and the stored checksum. -/
structure TaggedBase64 where
  tag : String
  value : List Nat
  checksum : Nat
deriving DecidableEq, Repr

/-- `TaggedBase64::is_safe_base64_ascii`: ASCII alphanumeric, `-`, or `_`. -/
def is_safe_base64_ascii (c : Char) : Bool :=
  (65 ≤ c.toNat && c.toNat ≤ 90) || (97 ≤ c.toNat && c.toNat ≤ 122) ||
    (48 ≤ c.toNat && c.toNat ≤ 57) || c.toNat == 45 || c.toNat == 95

/-- `TaggedBase64::is_safe_base64_tag`: every character is tag-safe. -/
def is_safe_base64_tag (tag : String) : Bool :=
  tag.data.all is_safe_base64_ascii

/-- `TaggedBase64::new`: validate the tag, then store tag, value, and the
computed checksum. -/
def new (tag : String) (value : List Nat) : Except Tb64Error TaggedBase64 :=
  if is_safe_base64_tag tag then
    .ok { tag := tag, value := value, checksum := calc_checksum tag value }
  else
    .error .InvalidTag

/-- `to_string`: the tag, the `~` delimiter, and the base64 encoding of the
value with the checksum byte appended. -/
def to_string (tb64 : TaggedBase64) : String :=
  tb64.tag ++ "~" ++ encode_raw (tb64.value ++ [tb64.checksum])

/-- Split a character list at the first `~`: the characters before it and
the characters after it.  Models `find(TB64_DELIM)` plus `split_at` plus
skipping the delimiter in `TaggedBase64::parse`. -/
def splitAtDelim : List Char → Option (List Char × List Char)
  | [] => none
  | c :: rest =>
    if c = '~' then some ([], rest)
    else match splitAtDelim rest with
      | none => none
      | some (t, v) => some (c :: t, v)

/-- `TaggedBase64::parse`.  `none` models a panic: the source computes
`bytes.len() - 1` and indexes with it, which aborts when the decoded byte
sequence is empty. -/
def parse (tb64 : String) : Option (Except Tb64Error TaggedBase64) :=
  match splitAtDelim tb64.data with
  | none => some (.error .MissingDelimiter)
  | some (tagChars, valueChars) =>
    if ¬ is_safe_base64_tag ⟨tagChars⟩ then some (.error .InvalidTag)
    else if valueChars = [] then some (.error .MissingChecksum)
    else
      match decode_raw (utf8ListBytes valueChars) with
      | .error e => some (.error e)
      | .ok bytes =>
        if bytes = [] then none
        else if bytes.getLastD 0 = calc_checksum ⟨tagChars⟩ bytes.dropLast then
          some (.ok { tag := ⟨tagChars⟩, value := bytes.dropLast,
                      checksum := bytes.getLastD 0 })
        else
          some (.error .InvalidChecksum)

/-- `TaggedBase64::set_tag`.  The source `assert!`s that the new tag is
safe; `none` models that panic. -/
def set_tag (tb64 : TaggedBase64) (tag : String) : Option TaggedBase64 :=
  if is_safe_base64_tag tag then
    some { tag := tag, value := tb64.value,
           checksum := calc_checksum tag tb64.value }
  else none

/-- `TaggedBase64::set_value`: replace the value and recompute the
checksum. -/
def set_value (tb64 : TaggedBase64) (value : List Nat) : TaggedBase64 :=
  { tag := tb64.tag, value := value, checksum := calc_checksum tb64.tag value }

/-! ## Auxiliary definitions for the statements of the claims -/

/-- The checksum algorithm as the specification words it: one CRC-8 over
the concatenation of the tag bytes and the payload bytes, xored with the
low byte of the payload length. -/
def checksum_spec (tag : String) (payload : List Nat) : Nat :=
  (crc8Digest 0 (strBytes tag ++ payload)) ^^^ (payload.length % 256)

/-- A mutation of a TaggedBase64 value through one of its two setters. -/
inductive Mutation
  | setTag (t : String)
  | setValue (v : List Nat)

/-- Apply one mutation (`none` models the panic of `set_tag`). -/
def applyMutation (tb : TaggedBase64) : Mutation → Option TaggedBase64
  | .setTag t => set_tag tb t
  | .setValue v => some (set_value tb v)

/-- Apply a sequence of mutations, stopping at a panic. -/
def applyMutations (tb : TaggedBase64) : List Mutation → Option TaggedBase64
  | [] => some tb
  | m :: ms =>
    match applyMutation tb m with
    | none => none
    | some tb2 => applyMutations tb2 ms

/-- The base64 body of the canonical string of a value, as characters. -/
def bodyChars (tb : TaggedBase64) : List Char :=
  (encodeBytes (tb.value ++ [tb.checksum])).map Char.ofNat

/-- Flip bit `k` of the byte of an ASCII character. -/
def flipBitChar (c : Char) (k : Nat) : Char :=
  Char.ofNat (c.toNat ^^^ (1 <<< k))

/-- The canonical string of a value with bit `k` of body character `i`
flipped. -/
def flipString (tb : TaggedBase64) (i k : Nat) : String :=
  ⟨tb.tag.data ++ '~' :: (bodyChars tb).set i (flipBitChar ((bodyChars tb).getD i 'A') k)⟩

/-- Bytewise xor of two byte sequences of equal length. -/
def xorList (xs ys : List Nat) : List Nat := List.zipWith (fun a b => a ^^^ b) xs ys

/-! ## Alphabet and decode-table facts -/

theorem lookupIdx_spec (b : Nat) :
    ∀ (l : List Nat) (m : Nat), lookupIdx b l = some m → m < l.length ∧ l.getD m 0 = b := by
  intro l
  induction l with
  | nil => intro m h; simp [lookupIdx] at h
  | cons x xs ih =>
    intro m h
    by_cases hx : x = b
    · simp [lookupIdx, hx] at h
      subst h
      simp [hx]
    · simp [lookupIdx, hx] at h
      obtain ⟨m', hm', rfl⟩ := h
      obtain ⟨h1, h2⟩ := ih m' hm'
      refine ⟨by simp only [List.length_cons]; omega, by simpa using h2⟩

theorem aByte_lt : ∀ m, m < 64 → aByte m < 128 := by decide

theorem morsel_aByte : ∀ m, m < 64 → b64MorselByte (aByte m) = some m := by decide

theorem utf8_ofNat_aByte : ∀ m, m < 64 → utf8Bytes (Char.ofNat (aByte m)) = [aByte m] := by
  decide

theorem morsel_inv (b m : Nat) (h : b64MorselByte b = some m) :
    m < 64 ∧ aByte m = b := by
  obtain ⟨h1, h2⟩ := lookupIdx_spec b alphabetBytes m h
  refine ⟨?_, h2⟩
  simpa [alphabetBytes, urlAlphabet] using h1

/-! ## Base64 encode/decode round trip -/

theorem encodeBytes_eq_nil (bs : List Nat) : encodeBytes bs = [] ↔ bs = [] := by
  induction bs using encodeBytes.induct <;> simp [encodeBytes]

theorem length_encodeBytes_mod (bs : List Nat) : (encodeBytes bs).length % 4 ≠ 1 := by
  induction bs using encodeBytes.induct with
  | case1 => simp [encodeBytes]
  | case2 a => simp [encodeBytes]
  | case3 a b => simp [encodeBytes]
  | case4 a b c rest ih => simp [encodeBytes]; omega

theorem encodeBytes_alpha (bs : List Nat) (h : ∀ b ∈ bs, b < 256) :
    ∀ x ∈ encodeBytes bs, ∃ m, m < 64 ∧ x = aByte m := by
  induction bs using encodeBytes.induct with
  | case1 => simp [encodeBytes]
  | case2 a =>
    have ha : a < 256 := h a (by simp)
    intro x hx
    simp [encodeBytes] at hx
    rcases hx with hx | hx
    · exact ⟨a / 4, by omega, hx⟩
    · exact ⟨(a % 4) * 16, by omega, hx⟩
  | case3 a b =>
    have ha : a < 256 := h a (by simp)
    have hb : b < 256 := h b (by simp)
    intro x hx
    simp [encodeBytes] at hx
    rcases hx with hx | hx | hx
    · exact ⟨a / 4, by omega, hx⟩
    · exact ⟨(a % 4) * 16 + b / 16, by omega, hx⟩
    · exact ⟨(b % 16) * 4, by omega, hx⟩
  | case4 a b c rest ih =>
    have ha : a < 256 := h a (by simp)
    have hb : b < 256 := h b (by simp)
    have hc : c < 256 := h c (by simp)
    have hrest : ∀ x ∈ rest, x < 256 := fun x hx => h x (by simp [hx])
    intro x hx
    simp only [encodeBytes, List.mem_cons] at hx
    rcases hx with hx | hx | hx | hx | hx
    · exact ⟨a / 4, by omega, hx⟩
    · exact ⟨(a % 4) * 16 + b / 16, by omega, hx⟩
    · exact ⟨(b % 16) * 4 + c / 64, by omega, hx⟩
    · exact ⟨c % 64, by omega, hx⟩
    · exact ih hrest x hx

theorem decodeGroups_encodeBytes (bs : List Nat) (h : ∀ b ∈ bs, b < 256) :
    ∀ off, decodeGroups (encodeBytes bs) off = .ok bs := by
  induction bs using encodeBytes.induct with
  | case1 => intro off; simp [encodeBytes, decodeGroups]
  | case2 a =>
    have ha : a < 256 := h a (by simp)
    intro off
    rw [show encodeBytes [a] = [aByte (a / 4), aByte ((a % 4) * 16)] from rfl]
    rw [decodeGroups, morsel_aByte (a / 4) (by omega), morsel_aByte ((a % 4) * 16) (by omega)]
    simp [Nat.mul_mod_left]
    omega
  | case3 a b =>
    have ha : a < 256 := h a (by simp)
    have hb : b < 256 := h b (by simp)
    intro off
    rw [show encodeBytes [a, b] =
      [aByte (a / 4), aByte ((a % 4) * 16 + b / 16), aByte ((b % 16) * 4)] from rfl]
    rw [decodeGroups, morsel_aByte (a / 4) (by omega),
      morsel_aByte ((a % 4) * 16 + b / 16) (by omega), morsel_aByte ((b % 16) * 4) (by omega)]
    simp [Nat.mul_mod_left]
    constructor
    · omega
    · omega
  | case4 a b c rest ih =>
    have ha : a < 256 := h a (by simp)
    have hb : b < 256 := h b (by simp)
    have hc : c < 256 := h c (by simp)
    have hrest : ∀ x ∈ rest, x < 256 := fun x hx => h x (by simp [hx])
    intro off
    rw [show encodeBytes (a :: b :: c :: rest) =
      aByte (a / 4) :: aByte ((a % 4) * 16 + b / 16) ::
        aByte ((b % 16) * 4 + c / 64) :: aByte (c % 64) :: encodeBytes rest from rfl]
    rw [decodeGroups, morsel_aByte (a / 4) (by omega),
      morsel_aByte ((a % 4) * 16 + b / 16) (by omega),
      morsel_aByte ((b % 16) * 4 + c / 64) (by omega),
      morsel_aByte (c % 64) (by omega), ih hrest (off + 4)]
    simp only [List.cons_append, List.nil_append]
    refine congrArg Except.ok ?_
    simp only [List.cons.injEq]
    refine ⟨by omega, by omega, by omega, trivial⟩

theorem decode_config_encodeBytes (bs : List Nat) (h : ∀ b ∈ bs, b < 256) :
    decode_config (encodeBytes bs) = .ok bs := by
  rw [decode_config, if_neg (by simpa using length_encodeBytes_mod bs)]
  exact decodeGroups_encodeBytes bs h 0

theorem decode_raw_encodeBytes (bs : List Nat) (h : ∀ b ∈ bs, b < 256) :
    decode_raw (encodeBytes bs) = .ok bs := by
  rw [decode_raw, decode_config_encodeBytes bs h]

/-! ## UTF-8 and string plumbing -/

theorem utf8Bytes_ascii (c : Char) (h : c.toNat < 128) : utf8Bytes c = [c.toNat] := by
  rw [utf8Bytes]
  simp [h]

theorem utf8ListBytes_alpha (l : List Nat) (h : ∀ x ∈ l, ∃ m, m < 64 ∧ x = aByte m) :
    utf8ListBytes (l.map Char.ofNat) = l := by
  induction l with
  | nil => rfl
  | cons x xs ih =>
    obtain ⟨m, hm, hx⟩ := h x (by simp)
    have hrest : utf8ListBytes (xs.map Char.ofNat) = xs :=
      ih fun y hy => h y (by simp [hy])
    show utf8Bytes (Char.ofNat x) ++ utf8ListBytes (xs.map Char.ofNat) = x :: xs
    rw [hrest, hx, utf8_ofNat_aByte m hm]
    rfl

theorem string_data_append (s t : String) : (s ++ t).data = s.data ++ t.data := rfl

theorem string_eta (s : String) : (⟨s.data⟩ : String) = s := rfl

theorem to_string_data (tb : TaggedBase64) :
    (to_string tb).data
      = tb.tag.data ++ '~' :: (encodeBytes (tb.value ++ [tb.checksum])).map Char.ofNat := by
  show (tb.tag ++ "~" ++ encode_raw (tb.value ++ [tb.checksum])).data = _
  rw [string_data_append, string_data_append]
  simp [encode_raw]

theorem splitAtDelim_append (t v : List Char) (h : '~' ∉ t) :
    splitAtDelim (t ++ '~' :: v) = some (t, v) := by
  induction t with
  | nil => simp [splitAtDelim]
  | cons c cs ih =>
    have hc : c ≠ '~' := fun hc => h (by simp [hc])
    have hcs : '~' ∉ cs := fun hm => h (by simp [hm])
    rw [List.cons_append, splitAtDelim, if_neg hc, ih hcs]

theorem splitAtDelim_inv :
    ∀ (cs t v : List Char), splitAtDelim cs = some (t, v) →
      cs = t ++ '~' :: v ∧ '~' ∉ t := by
  intro cs
  induction cs with
  | nil => intro t v h; simp [splitAtDelim] at h
  | cons c rest ih =>
    intro t v h
    rw [splitAtDelim] at h
    by_cases hc : c = '~'
    · rw [if_pos hc] at h
      simp only [Option.some.injEq, Prod.mk.injEq] at h
      obtain ⟨h1, h2⟩ := h
      subst h1; subst h2
      simp [hc]
    · rw [if_neg hc] at h
      rcases hsplit : splitAtDelim rest with _ | ⟨t', v'⟩
      · rw [hsplit] at h; simp at h
      · rw [hsplit] at h
        simp only [Option.some.injEq, Prod.mk.injEq] at h
        obtain ⟨h1, h2⟩ := h
        subst h1; subst h2
        obtain ⟨hrest, hnot⟩ := ih t' v' hsplit
        refine ⟨by simp [hrest], ?_⟩
        intro hmem
        rcases List.mem_cons.1 hmem with hmem | hmem
        · exact hc hmem.symm
        · exact hnot hmem

theorem safe_tag_no_delim (t : String) (ht : is_safe_base64_tag t = true) :
    '~' ∉ t.data := by
  intro hmem
  have h := List.all_eq_true.1 ht '~' hmem
  exact absurd h (by decide)

/-! ## Checksum bounds -/

theorem crcStep_lt (s : Nat) : crcStep s < 256 := by
  rw [crcStep]
  split <;> exact Nat.mod_lt _ (by norm_num)

theorem crc8UpdateByte_lt (s b : Nat) : crc8UpdateByte s b < 256 := crcStep_lt _

theorem crc8Digest_lt (bs : List Nat) :
    ∀ s, s < 256 → crc8Digest s bs < 256 := by
  induction bs with
  | nil => intro s h; simpa [crc8Digest] using h
  | cons b bs ih =>
    intro s h
    rw [crc8Digest, List.foldl_cons]
    exact ih _ (crc8UpdateByte_lt s b)

theorem calc_checksum_lt (tag : String) (value : List Nat) :
    calc_checksum tag value < 256 := by
  have h1 : crc8Digest (crc8Digest 0 (strBytes tag)) value < 256 :=
    crc8Digest_lt _ _ (crc8Digest_lt _ _ (by norm_num))
  have h2 : value.length % 256 < 256 := Nat.mod_lt _ (by norm_num)
  have h3 : (crc8Digest (crc8Digest 0 (strBytes tag)) value) ^^^ (value.length % 256)
      < 2 ^ 8 :=
    Nat.xor_lt_two_pow (by norm_num; exact h1) (by norm_num; exact h2)
  rw [calc_checksum]
  norm_num at h3
  exact h3

/-! ## Parse characterization and round trip -/

theorem string_ext (s t : String) (h : s.data = t.data) : s = t := by
  cases s
  cases t
  exact congrArg String.mk h

theorem splitAtDelim_none (cs : List Char) (h : '~' ∉ cs) : splitAtDelim cs = none := by
  induction cs with
  | nil => rfl
  | cons c rest ih =>
    have hc : c ≠ '~' := fun hc => h (by simp [hc])
    have hrest : '~' ∉ rest := fun hm => h (by simp [hm])
    rw [splitAtDelim, if_neg hc, ih hrest]

theorem parse_no_delim (s : String) (h : '~' ∉ s.data) :
    parse s = some (.error .MissingDelimiter) := by
  rw [parse, splitAtDelim_none s.data h]

theorem parse_invalid_tag (t v : List Char) (h : '~' ∉ t)
    (hsafe : is_safe_base64_tag ⟨t⟩ = false) :
    parse ⟨t ++ '~' :: v⟩ = some (.error .InvalidTag) := by
  have hdata : (⟨t ++ '~' :: v⟩ : String).data = t ++ '~' :: v := rfl
  rw [parse, hdata, splitAtDelim_append t v h]
  simp [hsafe]

theorem parse_missing_checksum (t : List Char) (h : '~' ∉ t)
    (hsafe : is_safe_base64_tag ⟨t⟩ = true) :
    parse ⟨t ++ ['~']⟩ = some (.error .MissingChecksum) := by
  have hdata : (⟨t ++ ['~']⟩ : String).data = t ++ '~' :: [] := rfl
  rw [parse, hdata, splitAtDelim_append t [] h]
  simp [hsafe]

theorem parse_decode_error (t v : List Char) (h : '~' ∉ t)
    (hsafe : is_safe_base64_tag ⟨t⟩ = true) (hv : v ≠ []) (e : Tb64Error)
    (hd : decode_raw (utf8ListBytes v) = .error e) :
    parse ⟨t ++ '~' :: v⟩ = some (.error e) := by
  have hdata : (⟨t ++ '~' :: v⟩ : String).data = t ++ '~' :: v := rfl
  rw [parse, hdata, splitAtDelim_append t v h]
  simp [hsafe, hv, hd]

theorem parse_decode_ok (t v : List Char) (h : '~' ∉ t)
    (hsafe : is_safe_base64_tag ⟨t⟩ = true) (hv : v ≠ []) (bytes : List Nat)
    (hbs : bytes ≠ []) (hd : decode_raw (utf8ListBytes v) = .ok bytes) :
    parse ⟨t ++ '~' :: v⟩ =
      (if bytes.getLastD 0 = calc_checksum ⟨t⟩ bytes.dropLast then
        some (.ok { tag := ⟨t⟩, value := bytes.dropLast, checksum := bytes.getLastD 0 })
      else some (.error .InvalidChecksum)) := by
  have hdata : (⟨t ++ '~' :: v⟩ : String).data = t ++ '~' :: v := rfl
  rw [parse, hdata, splitAtDelim_append t v h]
  simp [hsafe, hv, hd, hbs]

theorem roundtrip_main (t : String) (p : List Nat) (ht : is_safe_base64_tag t = true)
    (hp : ∀ b ∈ p, b < 256) :
    new t p = .ok ⟨t, p, calc_checksum t p⟩ ∧
    parse (to_string ⟨t, p, calc_checksum t p⟩) = some (.ok ⟨t, p, calc_checksum t p⟩) := by
  have hcs : calc_checksum t p < 256 := calc_checksum_lt t p
  have hall : ∀ b ∈ p ++ [calc_checksum t p], b < 256 := by
    intro b hb
    rcases List.mem_append.1 hb with hb | hb
    · exact hp b hb
    · simp at hb; omega
  constructor
  · rw [new, if_pos ht]
  · have hts : to_string ⟨t, p, calc_checksum t p⟩
        = ⟨t.data ++ '~' :: (encodeBytes (p ++ [calc_checksum t p])).map Char.ofNat⟩ :=
      string_ext _ _ (by rw [to_string_data])
    have hsafe : is_safe_base64_tag ⟨t.data⟩ = true := by rw [string_eta]; exact ht
    have hne : (encodeBytes (p ++ [calc_checksum t p])).map Char.ofNat ≠ [] := by
      simp [encodeBytes_eq_nil]
    have hdec : decode_raw
        (utf8ListBytes ((encodeBytes (p ++ [calc_checksum t p])).map Char.ofNat))
        = .ok (p ++ [calc_checksum t p]) := by
      rw [utf8ListBytes_alpha _ (encodeBytes_alpha _ hall), decode_raw_encodeBytes _ hall]
    rw [hts, parse_decode_ok t.data _ (safe_tag_no_delim t ht) hsafe hne _ (by simp) hdec]
    rw [List.getLastD_concat, List.dropLast_concat, if_pos rfl, string_eta]

/-! ## Parse inversion and canonicity -/

theorem parse_ok_inv (s : String) (tb : TaggedBase64) (h : parse s = some (.ok tb)) :
    ∃ t v bytes, splitAtDelim s.data = some (t, v) ∧ is_safe_base64_tag ⟨t⟩ = true ∧
      v ≠ [] ∧ decode_raw (utf8ListBytes v) = .ok bytes ∧ bytes ≠ [] ∧
      bytes.getLastD 0 = calc_checksum ⟨t⟩ bytes.dropLast ∧
      tb = ⟨⟨t⟩, bytes.dropLast, bytes.getLastD 0⟩ := by
  rw [parse] at h
  rcases hsplit : splitAtDelim s.data with _ | ⟨t, v⟩
  · rw [hsplit] at h; simp at h
  · simp only [hsplit] at h
    by_cases hsafe : is_safe_base64_tag ⟨t⟩ = true
    · rw [if_neg (not_not_intro hsafe)] at h
      by_cases hv : v = []
      · rw [if_pos hv] at h; simp at h
      · rw [if_neg hv] at h
        rcases hdec : decode_raw (utf8ListBytes v) with e | bytes
        · simp only [hdec] at h; simp at h
        · simp only [hdec] at h
          by_cases hb : bytes = []
          · rw [if_pos hb] at h; simp at h
          · rw [if_neg hb] at h
            by_cases hcs : bytes.getLastD 0 = calc_checksum ⟨t⟩ bytes.dropLast
            · rw [if_pos hcs] at h
              simp only [Option.some.injEq, Except.ok.injEq] at h
              exact ⟨t, v, bytes, rfl, hsafe, hv, hdec, hb, hcs, h.symm⟩
            · rw [if_neg hcs] at h; simp at h
    · rw [if_pos hsafe] at h; simp at h

theorem dropLast_getLastD (l : List Nat) (h : l ≠ []) :
    l.dropLast ++ [l.getLastD 0] = l := by
  rcases List.eq_nil_or_concat l with rfl | ⟨l2, b, rfl⟩
  · exact absurd rfl h
  · simp [List.concat_eq_append]

theorem decodeGroups_canonical_aux :
    ∀ (n : Nat) (bs : List Nat), bs.length ≤ n → ∀ (off : Nat) (out : List Nat),
      decodeGroups bs off = .ok out → encodeBytes out = bs ∧ ∀ b ∈ out, b < 256 := by
  intro n
  induction n with
  | zero =>
    intro bs hlen off out h
    have hnil : bs = [] := List.eq_nil_of_length_eq_zero (Nat.le_zero.1 hlen)
    subst hnil
    rw [decodeGroups] at h
    simp only [Except.ok.injEq] at h
    subst h
    exact ⟨rfl, by simp⟩
  | succ n ih =>
    intro bs hlen off out h
    rcases bs with _ | ⟨a, _ | ⟨b, _ | ⟨c, _ | ⟨d, rest⟩⟩⟩⟩
    · rw [decodeGroups] at h
      simp only [Except.ok.injEq] at h
      subst h
      exact ⟨rfl, by simp⟩
    · simp [decodeGroups] at h
    · simp only [decodeGroups] at h
      rcases hma : b64MorselByte a with _ | ma <;> simp only [hma] at h
      · simp at h
      rcases hmb : b64MorselByte b with _ | mb <;> simp only [hmb] at h
      · simp at h
      by_cases hmb16 : mb % 16 = 0
      · rw [if_pos hmb16] at h
        simp only [Except.ok.injEq] at h
        subst h
        obtain ⟨hma64, haB⟩ := morsel_inv a ma hma
        obtain ⟨hmb64, hbB⟩ := morsel_inv b mb hmb
        constructor
        · show [aByte ((ma * 4 + mb / 16) / 4), aByte ((ma * 4 + mb / 16) % 4 * 16)] = [a, b]
          rw [show (ma * 4 + mb / 16) / 4 = ma by omega,
            show (ma * 4 + mb / 16) % 4 * 16 = mb by omega, haB, hbB]
        · intro x hx; simp at hx; omega
      · rw [if_neg hmb16] at h; simp at h
    · simp only [decodeGroups] at h
      rcases hma : b64MorselByte a with _ | ma <;> simp only [hma] at h
      · simp at h
      rcases hmb : b64MorselByte b with _ | mb <;> simp only [hmb] at h
      · simp at h
      rcases hmc : b64MorselByte c with _ | mc <;> simp only [hmc] at h
      · simp at h
      by_cases hmc4 : mc % 4 = 0
      · rw [if_pos hmc4] at h
        simp only [Except.ok.injEq] at h
        subst h
        obtain ⟨hma64, haB⟩ := morsel_inv a ma hma
        obtain ⟨hmb64, hbB⟩ := morsel_inv b mb hmb
        obtain ⟨hmc64, hcB⟩ := morsel_inv c mc hmc
        constructor
        · show [aByte ((ma * 4 + mb / 16) / 4),
            aByte ((ma * 4 + mb / 16) % 4 * 16 + (mb % 16 * 16 + mc / 4) / 16),
            aByte ((mb % 16 * 16 + mc / 4) % 16 * 4)] = [a, b, c]
          rw [show (ma * 4 + mb / 16) / 4 = ma by omega,
            show (ma * 4 + mb / 16) % 4 * 16 + (mb % 16 * 16 + mc / 4) / 16 = mb by omega,
            show (mb % 16 * 16 + mc / 4) % 16 * 4 = mc by omega, haB, hbB, hcB]
        · intro x hx; simp at hx; rcases hx with hx | hx <;> omega
      · rw [if_neg hmc4] at h; simp at h
    · simp only [decodeGroups] at h
      rcases hma : b64MorselByte a with _ | ma <;> simp only [hma] at h
      · simp at h
      rcases hmb : b64MorselByte b with _ | mb <;> simp only [hmb] at h
      · simp at h
      rcases hmc : b64MorselByte c with _ | mc <;> simp only [hmc] at h
      · simp at h
      rcases hmd : b64MorselByte d with _ | md <;> simp only [hmd] at h
      · simp at h
      rcases hrec : decodeGroups rest (off + 4) with e | tail <;> simp only [hrec] at h
      · simp at h
      simp only [Except.ok.injEq] at h
      subst h
      obtain ⟨henct, hbt⟩ := ih rest (by simp at hlen; omega) (off + 4) tail hrec
      obtain ⟨hma64, haB⟩ := morsel_inv a ma hma
      obtain ⟨hmb64, hbB⟩ := morsel_inv b mb hmb
      obtain ⟨hmc64, hcB⟩ := morsel_inv c mc hmc
      obtain ⟨hmd64, hdB⟩ := morsel_inv d md hmd
      constructor
      · show aByte ((ma * 4 + mb / 16) / 4) ::
          aByte ((ma * 4 + mb / 16) % 4 * 16 + (mb % 16 * 16 + mc / 4) / 16) ::
          aByte ((mb % 16 * 16 + mc / 4) % 16 * 4 + (mc % 4 * 64 + md) / 64) ::
          aByte ((mc % 4 * 64 + md) % 64) :: encodeBytes tail
            = a :: b :: c :: d :: rest
        rw [show (ma * 4 + mb / 16) / 4 = ma by omega,
          show (ma * 4 + mb / 16) % 4 * 16 + (mb % 16 * 16 + mc / 4) / 16 = mb by omega,
          show (mb % 16 * 16 + mc / 4) % 16 * 4 + (mc % 4 * 64 + md) / 64 = mc by omega,
          show (mc % 4 * 64 + md) % 64 = md by omega, haB, hbB, hcB, hdB, henct]
      · intro x hx
        simp only [List.cons_append, List.nil_append, List.mem_cons] at hx
        rcases hx with hx | hx | hx | hx
        · omega
        · omega
        · omega
        · exact hbt x hx

theorem decode_config_canonical (bs out : List Nat) (h : decode_config bs = .ok out) :
    encodeBytes out = bs ∧ ∀ b ∈ out, b < 256 := by
  rw [decode_config] at h
  by_cases hlen : bs.length % 4 = 1
  · rw [if_pos hlen] at h
    rcases hlast : bs.getLast? with _ | b <;> simp only [hlast] at h
    · simp at h
    · by_cases hm : (b64MorselByte b).isNone
      · rw [if_pos hm] at h; simp at h
      · rw [if_neg hm] at h; simp at h
  · rw [if_neg hlen] at h
    exact decodeGroups_canonical_aux bs.length bs le_rfl 0 out h

theorem decode_raw_ok_inv (bs out : List Nat) (h : decode_raw bs = .ok out) :
    decode_config bs = .ok out := by
  rw [decode_raw] at h
  rcases hx : decode_config bs with e | o <;> rw [hx] at h
  · cases e <;> simp at h
  · simp only [Except.ok.injEq] at h
    rw [h]

theorem utf8ListBytes_inj_ascii :
    ∀ (cs : List Char) (bs : List Nat), utf8ListBytes cs = bs → (∀ b ∈ bs, b < 128) →
      cs = bs.map Char.ofNat := by
  intro cs
  induction cs with
  | nil =>
    intro bs h hb
    rw [show utf8ListBytes [] = [] from rfl] at h
    subst h
    rfl
  | cons c rest ih =>
    intro bs h hb
    by_cases hc : c.toNat < 128
    · have hcons : utf8ListBytes (c :: rest) = c.toNat :: utf8ListBytes rest := by
        show utf8Bytes c ++ utf8ListBytes rest = _
        rw [utf8Bytes_ascii c hc]
        rfl
      rw [hcons] at h
      subst h
      rw [List.map_cons, Char.ofNat_toNat]
      have := ih (utf8ListBytes rest) rfl (fun b hbm => hb b (by simp [hbm]))
      rw [← this]
    · exfalso
      have hhead : ∃ b0 bs0, utf8Bytes c = b0 :: bs0 ∧ 128 ≤ b0 := by
        rw [utf8Bytes]
        simp only [hc, if_false]
        by_cases h2 : c.toNat < 2048
        · exact ⟨_, _, by rw [if_pos h2], by omega⟩
        · by_cases h3 : c.toNat < 65536
          · exact ⟨_, _, by rw [if_neg h2, if_pos h3], by omega⟩
          · exact ⟨_, _, by rw [if_neg h2, if_neg h3], by omega⟩
      obtain ⟨b0, bs0, hbytes, hb0⟩ := hhead
      have : utf8ListBytes (c :: rest) = b0 :: (bs0 ++ utf8ListBytes rest) := by
        show utf8Bytes c ++ utf8ListBytes rest = _
        rw [hbytes]
        rfl
      rw [this] at h
      have hb0' : b0 < 128 := hb b0 (by rw [← h]; simp)
      omega

theorem utf8Bytes_ne_nil (c : Char) : utf8Bytes c ≠ [] := by
  rw [utf8Bytes]
  split
  · simp
  split
  · simp
  split <;> simp

theorem utf8ListBytes_eq_nil (v : List Char) (h : utf8ListBytes v = []) : v = [] := by
  cases v with
  | nil => rfl
  | cons c rest =>
    exfalso
    have : utf8Bytes c ++ utf8ListBytes rest = [] := h
    exact utf8Bytes_ne_nil c (List.append_eq_nil.1 this).1

theorem decode_raw_ok_ne_nil (v : List Char) (bytes : List Nat) (hv : v ≠ [])
    (hdec : decode_raw (utf8ListBytes v) = .ok bytes) : bytes ≠ [] := by
  intro hb
  subst hb
  have hdc := decode_raw_ok_inv _ _ hdec
  obtain ⟨henc, -⟩ := decode_config_canonical _ _ hdc
  have : utf8ListBytes v = [] := by rw [← henc]; rfl
  exact hv (utf8ListBytes_eq_nil v this)

theorem parse_ne_none (s : String) : parse s ≠ none := by
  intro h
  rw [parse] at h
  rcases hsplit : splitAtDelim s.data with _ | ⟨t, v⟩ <;> simp only [hsplit] at h
  · simp at h
  · by_cases hsafe : is_safe_base64_tag ⟨t⟩ = true
    · rw [if_neg (not_not_intro hsafe)] at h
      by_cases hv : v = []
      · rw [if_pos hv] at h; simp at h
      · rw [if_neg hv] at h
        rcases hdec : decode_raw (utf8ListBytes v) with e | bytes <;> simp only [hdec] at h
        · simp at h
        · rw [if_neg (decode_raw_ok_ne_nil v bytes hv hdec)] at h
          by_cases hcs : bytes.getLastD 0 = calc_checksum ⟨t⟩ bytes.dropLast
          · rw [if_pos hcs] at h; simp at h
          · rw [if_neg hcs] at h; simp at h
    · rw [if_pos hsafe] at h; simp at h

theorem new_ok_inv (t : String) (p : List Nat) (tb : TaggedBase64)
    (h : new t p = .ok tb) :
    tb = ⟨t, p, calc_checksum t p⟩ ∧ is_safe_base64_tag t = true := by
  rw [new] at h
  by_cases hs : is_safe_base64_tag t = true
  · rw [if_pos hs] at h
    simp only [Except.ok.injEq] at h
    exact ⟨h.symm, hs⟩
  · rw [if_neg hs] at h
    simp at h

theorem applyMutations_inv :
    ∀ (ms : List Mutation) (tb tb2 : TaggedBase64), applyMutations tb ms = some tb2 →
      tb.checksum = calc_checksum tb.tag tb.value →
      tb2.checksum = calc_checksum tb2.tag tb2.value := by
  intro ms
  induction ms with
  | nil =>
    intro tb tb2 h hinv
    rw [applyMutations] at h
    simp only [Option.some.injEq] at h
    subst h
    exact hinv
  | cons m rest ih =>
    intro tb tb2 h hinv
    rw [applyMutations] at h
    cases m with
    | setTag tg =>
      cases hsafe : is_safe_base64_tag tg with
      | false =>
        have hnone : applyMutation tb (.setTag tg) = none := by
          simp [applyMutation, set_tag, hsafe]
        rw [hnone] at h
        simp at h
      | true =>
        have hsome : applyMutation tb (.setTag tg)
            = some ⟨tg, tb.value, calc_checksum tg tb.value⟩ := by
          simp [applyMutation, set_tag, hsafe]
        rw [hsome] at h
        exact ih _ tb2 h rfl
    | setValue nv =>
      have hsome : applyMutation tb (.setValue nv) = some (set_value tb nv) := rfl
      rw [hsome] at h
      exact ih _ tb2 h rfl

theorem decode_raw_error_inv (bs : List Nat) (e : Tb64Error)
    (h : decode_raw bs = .error e) :
    e = .InvalidLength ∨ (∃ o b, e = .InvalidByte o b) ∨ ∃ o b, e = .InvalidLastSymbol o b := by
  rw [decode_raw] at h
  rcases hx : decode_config bs with de | o <;> rw [hx] at h
  · cases de with
    | InvalidByte o b =>
      simp only [Except.error.injEq] at h
      exact Or.inr (Or.inl ⟨o, b, h.symm⟩)
    | InvalidLength =>
      simp only [Except.error.injEq] at h
      exact Or.inl h.symm
    | InvalidLastSymbol o b =>
      simp only [Except.error.injEq] at h
      exact Or.inr (Or.inr ⟨o, b, h.symm⟩)
  · simp at h

/-! ## The claims -/

/-- Claim C1: for every tag `t` with `is_safe_base64_tag t` and every byte
sequence `p`, `TaggedBase64::new t p` succeeds, and parsing the canonical
string of the result returns `Ok` of a value with equal tag, value, and
checksum fields. -/
theorem claim_C1_roundtrip (t : String) (p : List Nat)
    (ht : is_safe_base64_tag t = true) (hp : ∀ b ∈ p, b < 256) :
    new t p = .ok ⟨t, p, calc_checksum t p⟩ ∧
    parse (to_string ⟨t, p, calc_checksum t p⟩) = some (.ok ⟨t, p, calc_checksum t p⟩) :=
  roundtrip_main t p ht hp

theorem claim_C1_roundtrip_witness :
    new "KEY" [1, 2, 255] = .ok ⟨"KEY", [1, 2, 255], calc_checksum "KEY" [1, 2, 255]⟩ ∧
    parse (to_string ⟨"KEY", [1, 2, 255], calc_checksum "KEY" [1, 2, 255]⟩)
      = some (.ok ⟨"KEY", [1, 2, 255], calc_checksum "KEY" [1, 2, 255]⟩) :=
  claim_C1_roundtrip "KEY" [1, 2, 255] (by decide) (by decide)

/-- Claim C2: `calc_checksum tag payload` — defined, as in the source, by
feeding the tag bytes and then the payload bytes as two separate digest
feeds — equals the CRC-8 of the single concatenated byte sequence (tag
first, then payload) xored with the low byte of the payload length. -/
theorem claim_C2_checksum (t : String) (p : List Nat) :
    calc_checksum t p = checksum_spec t p := by
  rw [calc_checksum, checksum_spec, crc8Digest, crc8Digest, crc8Digest, List.foldl_append]

/-- Claim C3: parse performs its checks in order: no delimiter anywhere is
`MissingDelimiter`; an unsafe tag before the first delimiter is
`InvalidTag` (even though the delimiter is present); an empty body is
`MissingChecksum`; then base64 decode errors are returned as they are; then
a checksum mismatch is `InvalidChecksum`; with the concrete instances
`"a!b~xx"`, `"AA"`, `"AAA~"`, `"AAA~AAA"`. -/
theorem claim_C3_parse_order :
    (∀ s : String, '~' ∉ s.data → parse s = some (.error .MissingDelimiter)) ∧
    (∀ t v : List Char, '~' ∉ t → is_safe_base64_tag ⟨t⟩ = false →
      parse ⟨t ++ '~' :: v⟩ = some (.error .InvalidTag)) ∧
    (∀ t : List Char, '~' ∉ t → is_safe_base64_tag ⟨t⟩ = true →
      parse ⟨t ++ ['~']⟩ = some (.error .MissingChecksum)) ∧
    (∀ (t v : List Char) (e : Tb64Error), '~' ∉ t → is_safe_base64_tag ⟨t⟩ = true →
      v ≠ [] → decode_raw (utf8ListBytes v) = .error e →
      parse ⟨t ++ '~' :: v⟩ = some (.error e)) ∧
    (∀ (t v : List Char) (bytes : List Nat), '~' ∉ t → is_safe_base64_tag ⟨t⟩ = true →
      v ≠ [] → decode_raw (utf8ListBytes v) = .ok bytes → bytes ≠ [] →
      bytes.getLastD 0 ≠ calc_checksum ⟨t⟩ bytes.dropLast →
      parse ⟨t ++ '~' :: v⟩ = some (.error .InvalidChecksum)) ∧
    parse "a!b~xx" = some (.error .InvalidTag) ∧
    parse "AA" = some (.error .MissingDelimiter) ∧
    parse "AAA~" = some (.error .MissingChecksum) ∧
    parse "AAA~AAA" = some (.error .InvalidChecksum) := by
  refine ⟨parse_no_delim, parse_invalid_tag, parse_missing_checksum,
    fun t v e h1 h2 h3 h4 => parse_decode_error t v h1 h2 h3 e h4,
    fun t v bytes h1 h2 h3 h4 h5 h6 => ?_, by decide, by decide, by decide, by decide⟩
  rw [parse_decode_ok t v h1 h2 h3 bytes h5 h4, if_neg h6]

theorem claim_C3_parse_order_witness :
    parse "AB" = some (.error .MissingDelimiter) :=
  claim_C3_parse_order.1 "AB" (by decide)

/-- Claim C4: base64 decoding failures of the body are classified —
`InvalidByte` for a byte outside the alphabet, `InvalidLastSymbol` for a
final in-alphabet symbol with nonzero discarded bits, `InvalidLength` for
an invalid symbol count (`parse "AAA~AAAAA"` gives `InvalidLength`) — and
parse returns exactly the classified error, never a collapsed one. -/
theorem claim_C4_decode_errors :
    parse "AAA~AAAAA" = some (.error .InvalidLength) ∧
    parse "AAA~A!A" = some (.error (.InvalidByte 1 33)) ∧
    parse "AAA~AAF" = some (.error (.InvalidLastSymbol 2 70)) ∧
    (∀ (t v : List Char) (e : Tb64Error), '~' ∉ t → is_safe_base64_tag ⟨t⟩ = true →
      v ≠ [] → decode_raw (utf8ListBytes v) = .error e →
      parse ⟨t ++ '~' :: v⟩ = some (.error e) ∧
        (e = .InvalidLength ∨ (∃ o b, e = .InvalidByte o b) ∨
          ∃ o b, e = .InvalidLastSymbol o b)) :=
  ⟨by decide, by decide, by decide, fun t v e h1 h2 h3 h4 =>
    ⟨parse_decode_error t v h1 h2 h3 e h4, decode_raw_error_inv _ e h4⟩⟩

theorem claim_C4_decode_errors_witness :
    parse ⟨['B'] ++ '~' :: ['!', '!']⟩ = some (.error (.InvalidByte 0 33)) :=
  (claim_C4_decode_errors.2.2.2 ['B'] ['!', '!'] (.InvalidByte 0 33)
    (by decide) (by decide) (by decide) (by decide)).1

/-- Claim C5 counterexample: the claim says no codec operation aborts on
any input, and in particular that setting an invalid tag is an ordinary
failure.  But `set_tag` in the source `assert!`s tag safety: on the live
value produced by `new "A" []` (tag `"A"`, empty value, checksum 192),
`set_tag` with the invalid tag `"~"` hits the assert and aborts (`none` in
this model). -/
theorem claim_C5_counterexample :
    set_tag { tag := "A", value := [], checksum := 192 } "~" = none := by
  decide

/-- Claim C5 (amended): `parse` never panics — in particular its split of
the decoded bytes never underflows, because a successfully decoded
non-empty body always decodes to at least one byte; `new`, `to_string` and
`set_value` are total by construction; but `set_tag` aborts exactly when
the new tag is invalid. -/
theorem claim_C5_amended :
    (∀ s : String, parse s ≠ none) ∧
    (∀ (tb : TaggedBase64) (tag : String),
      set_tag tb tag = none ↔ is_safe_base64_tag tag = false) ∧
    (∀ (v : List Char) (bytes : List Nat), v ≠ [] →
      decode_raw (utf8ListBytes v) = .ok bytes → bytes ≠ []) := by
  refine ⟨parse_ne_none, ?_, decode_raw_ok_ne_nil⟩
  intro tb tag
  cases hsafe : is_safe_base64_tag tag <;> simp [set_tag, hsafe]

theorem claim_C5_amended_witness :
    ¬(set_tag { tag := "A", value := [], checksum := 192 } "AB" = none) :=
  (Iff.mpr (not_iff_not.2 ((claim_C5_amended.2.1
    { tag := "A", value := [], checksum := 192 } "AB"))) (by decide))

/-- Claim C7: any value obtained from `new` or `parse`, after any sequence
of `set_tag`/`set_value` mutations that does not abort, satisfies invariant
I1: the stored checksum equals `calc_checksum tag value`. -/
theorem claim_C7_invariant (t s : String) (p : List Nat) (tb0 tb : TaggedBase64)
    (ms : List Mutation)
    (h0 : new t p = .ok tb0 ∨ parse s = some (.ok tb0))
    (happ : applyMutations tb0 ms = some tb) :
    tb.checksum = calc_checksum tb.tag tb.value := by
  have hinv0 : tb0.checksum = calc_checksum tb0.tag tb0.value := by
    rcases h0 with h0 | h0
    · obtain ⟨rfl, -⟩ := new_ok_inv t p tb0 h0
      rfl
    · obtain ⟨t', v', bytes, -, -, -, -, -, hcs, htb⟩ := parse_ok_inv s tb0 h0
      subst htb
      exact hcs
  exact applyMutations_inv ms tb0 tb happ hinv0

theorem claim_C7_invariant_witness :
    (⟨"B", [1], calc_checksum "B" [1]⟩ : TaggedBase64).checksum
      = calc_checksum (⟨"B", [1], calc_checksum "B" [1]⟩ : TaggedBase64).tag
        (⟨"B", [1], calc_checksum "B" [1]⟩ : TaggedBase64).value :=
  claim_C7_invariant "A" "x" [] ⟨"A", [], 192⟩ _ [.setValue [1], .setTag "B"]
    (Or.inl (by decide)) (by decide)

/-- Claim C8: `new t p` fails with `InvalidTag` exactly when `t` contains a
character outside the tag alphabet, succeeds otherwise regardless of `p`,
and the empty tag is legal: `new "" p` succeeds and round-trips. -/
theorem claim_C8_tag_rejection (t : String) (p : List Nat) :
    (new t p = .error .InvalidTag ↔ ∃ c ∈ t.data, is_safe_base64_ascii c = false) ∧
    (is_safe_base64_tag t = true → new t p = .ok ⟨t, p, calc_checksum t p⟩) ∧
    ((∀ b ∈ p, b < 256) →
      new "" p = .ok ⟨"", p, calc_checksum "" p⟩ ∧
      parse (to_string ⟨"", p, calc_checksum "" p⟩)
        = some (.ok ⟨"", p, calc_checksum "" p⟩)) := by
  refine ⟨⟨?_, ?_⟩, ?_, fun hp => roundtrip_main "" p rfl hp⟩
  · intro h
    rw [new] at h
    by_cases hs : is_safe_base64_tag t = true
    · rw [if_pos hs] at h; simp at h
    · simp only [is_safe_base64_tag, List.all_eq_true, not_forall] at hs
      obtain ⟨c, hc, hcf⟩ := hs
      exact ⟨c, hc, by simpa using hcf⟩
  · intro ⟨c, hc, hcf⟩
    rw [new, if_neg]
    intro hs
    have := List.all_eq_true.1 hs c hc
    rw [hcf] at this
    exact Bool.false_ne_true this
  · intro hs
    rw [new, if_pos hs]

theorem claim_C8_tag_rejection_witness :
    new "A/A" [0] = .error .InvalidTag ∧
    new "" [109] = .ok ⟨"", [109], calc_checksum "" [109]⟩ :=
  ⟨(claim_C8_tag_rejection "A/A" [0]).1.mpr ⟨'/', by decide, by decide⟩,
    ((claim_C8_tag_rejection "" [109]).2.2 (by decide)).1⟩

/-- Claim C9: `to_string (new "TAG" b"")` is exactly `"TAG~Ew"` (the two
base64 characters encode the single checksum byte of the empty payload),
and `parse "TAG~Ew"` returns a value equal to `new "TAG" b""`. -/
theorem claim_C9_boundary :
    ∃ tb : TaggedBase64, new "TAG" [] = .ok tb ∧ to_string tb = "TAG~Ew" ∧
      parse "TAG~Ew" = some (.ok tb) :=
  ⟨⟨"TAG", [], 19⟩, by decide, by decide, by decide⟩

/-- Claim C10: every string accepted by `parse` is the canonical string of
the parsed value: `to_string (parse s) = s`, so each value has exactly one
accepted string form. -/
theorem claim_C10_canonical (s : String) (v : TaggedBase64)
    (h : parse s = some (.ok v)) : to_string v = s := by
  obtain ⟨t, vc, bytes, hsplit, hsafe, hv, hdec, hb, hcs, htb⟩ := parse_ok_inv s v h
  have hdc := decode_raw_ok_inv _ _ hdec
  obtain ⟨henc, hbound⟩ := decode_config_canonical _ _ hdc
  have hlt128 : ∀ b2 ∈ utf8ListBytes vc, b2 < 128 := by
    intro b2 hb2
    rw [← henc] at hb2
    obtain ⟨m, hm, rfl⟩ := encodeBytes_alpha bytes hbound b2 hb2
    exact aByte_lt m hm
  have hvc : vc = (utf8ListBytes vc).map Char.ofNat :=
    utf8ListBytes_inj_ascii vc _ rfl hlt128
  obtain ⟨hsdata, hnot⟩ := splitAtDelim_inv s.data t vc hsplit
  subst htb
  apply string_ext
  rw [to_string_data]
  show t ++ '~' :: (encodeBytes (bytes.dropLast ++ [bytes.getLastD 0])).map Char.ofNat
    = s.data
  rw [dropLast_getLastD bytes hb, henc, ← hvc, hsdata]

theorem claim_C10_canonical_witness :
    to_string ⟨"TAG", [], 19⟩ = "TAG~Ew" :=
  claim_C10_canonical "TAG~Ew" ⟨"TAG", [], 19⟩ (by decide)

/-! ## CRC-8 linearity over xor

The CRC-8 state update is linear over bytewise xor: this is the heart of
the corruption-detection argument.  A single flipped body character changes
one 6-bit morsel, so the decoded difference is a nonzero burst confined to
six consecutive bits, and no such burst is a multiple of the CRC
polynomial; the finitely many burst shapes are checked by `decide`. -/

theorem mul_two_xor (a b : Nat) : (a ^^^ b) * 2 = a * 2 ^^^ b * 2 := by
  have h2 : ∀ x : Nat, x * 2 = x <<< 1 := fun x => by
    rw [Nat.shiftLeft_eq, pow_one]
  rw [h2, h2, h2]
  apply Nat.eq_of_testBit_eq
  intro i
  simp [Bool.and_xor_distrib_left]

theorem mod_pow_xor (x y n : Nat) : (x ^^^ y) % 2 ^ n = x % 2 ^ n ^^^ y % 2 ^ n := by
  apply Nat.eq_of_testBit_eq
  intro i
  simp [Bool.and_xor_distrib_left]

theorem mod256_xor (x y : Nat) : (x ^^^ y) % 256 = x % 256 ^^^ y % 256 := by
  have h := mod_pow_xor x y 8
  norm_num at h
  exact h

theorem xor_swap4 (a b c d : Nat) : (a ^^^ b) ^^^ (c ^^^ d) = (a ^^^ c) ^^^ (b ^^^ d) := by
  rw [Nat.xor_assoc, Nat.xor_assoc]
  congr 1
  rw [← Nat.xor_assoc, ← Nat.xor_assoc]
  congr 1
  exact Nat.xor_comm b c

theorem and128_testBit (s : Nat) : s &&& 128 = (s.testBit 7).toNat * 128 := by
  have h : (128 : Nat) = 2 ^ 7 := by norm_num
  rw [h, Nat.and_two_pow]

theorem crcStep_eq (s : Nat) :
    crcStep s = (s * 2 ^^^ (if s.testBit 7 then 7 else 0)) % 256 := by
  rw [crcStep, and128_testBit]
  cases hb : s.testBit 7 <;> simp

theorem crcStep_linear (s t : Nat) : crcStep (s ^^^ t) = crcStep s ^^^ crcStep t := by
  rw [crcStep_eq, crcStep_eq, crcStep_eq, ← mod256_xor]
  congr 1
  rw [mul_two_xor, Nat.testBit_xor]
  cases hs : s.testBit 7 <;> cases ht : t.testBit 7 <;> simp [hs, ht, Nat.xor_assoc]
  · rw [Nat.xor_comm 7]
  · rw [Nat.xor_comm (t * 2) 7, ← Nat.xor_assoc, Nat.xor_self, Nat.zero_xor]

theorem crcSteps8_linear (s t : Nat) :
    crcSteps8 (s ^^^ t) = crcSteps8 s ^^^ crcSteps8 t := by
  rw [crcSteps8, crcSteps8, crcSteps8, crcStep_linear, crcStep_linear, crcStep_linear,
    crcStep_linear, crcStep_linear, crcStep_linear, crcStep_linear, crcStep_linear]

theorem crc8UpdateByte_linear (s t b c : Nat) :
    crc8UpdateByte (s ^^^ t) (b ^^^ c) = crc8UpdateByte s b ^^^ crc8UpdateByte t c := by
  rw [crc8UpdateByte, crc8UpdateByte, crc8UpdateByte, xor_swap4, crcSteps8_linear]

theorem xorList_cons (x y : Nat) (xs ys : List Nat) :
    xorList (x :: xs) (y :: ys) = (x ^^^ y) :: xorList xs ys := rfl

theorem crc8Digest_linear :
    ∀ (X Y : List Nat) (s t : Nat), X.length = Y.length →
      crc8Digest (s ^^^ t) (xorList X Y) = crc8Digest s X ^^^ crc8Digest t Y := by
  intro X
  induction X with
  | nil =>
    intro Y s t hlen
    have hY : Y = [] := List.eq_nil_of_length_eq_zero (by simpa using hlen.symm)
    subst hY
    rfl
  | cons x X ih =>
    intro Y s t hlen
    cases Y with
    | nil => simp at hlen
    | cons y Y =>
      rw [xorList_cons,
        show crc8Digest (s ^^^ t) ((x ^^^ y) :: xorList X Y)
          = crc8Digest (crc8UpdateByte (s ^^^ t) (x ^^^ y)) (xorList X Y) from rfl,
        show crc8Digest s (x :: X) = crc8Digest (crc8UpdateByte s x) X from rfl,
        show crc8Digest t (y :: Y) = crc8Digest (crc8UpdateByte t y) Y from rfl,
        crc8UpdateByte_linear]
      exact ih Y _ _ (by simpa using hlen)

theorem crcSteps8_lt (s : Nat) : crcSteps8 s < 256 := crcStep_lt _

set_option maxRecDepth 2048 in
theorem crcSteps8_eq_zero : ∀ s, s < 256 → crcSteps8 s = 0 → s = 0 := by decide

theorem crc8UpdateByte_zero (s : Nat) : crc8UpdateByte s 0 = crcSteps8 s := by
  rw [crc8UpdateByte, Nat.xor_zero]

theorem crc8Digest_zeros :
    ∀ (r : Nat) (s : Nat), s < 256 → crc8Digest s (List.replicate r 0) = 0 → s = 0 := by
  intro r
  induction r with
  | zero => intro s _ h; exact h
  | succ r ih =>
    intro s hs h
    rw [List.replicate_succ,
      show crc8Digest s (0 :: List.replicate r 0)
        = crc8Digest (crc8UpdateByte s 0) (List.replicate r 0) from rfl,
      crc8UpdateByte_zero] at h
    exact crcSteps8_eq_zero s hs (ih (crcSteps8 s) (crcSteps8_lt s) h)

theorem crcH_append_zeros_ne (P : List Nat) (r : Nat) (h : crc8Digest 0 P ≠ 0) :
    crc8Digest 0 (P ++ List.replicate r 0) ≠ 0 := by
  intro hzero
  rw [show crc8Digest 0 (P ++ List.replicate r 0)
      = crc8Digest (crc8Digest 0 P) (List.replicate r 0) from List.foldl_append ..] at hzero
  exact h (crc8Digest_zeros r _ (crc8Digest_lt P 0 (by norm_num)) hzero)

theorem crc8Digest_zero_cons (X : List Nat) : crc8Digest 0 (0 :: X) = crc8Digest 0 X := by
  rw [show crc8Digest 0 (0 :: X) = crc8Digest (crc8UpdateByte 0 0) X from rfl,
    show crc8UpdateByte 0 0 = 0 from by decide]

theorem xorList_self (X : List Nat) : xorList X X = List.replicate X.length 0 := by
  induction X with
  | nil => rfl
  | cons x X ih => rw [xorList_cons, Nat.xor_self, ih, List.length_cons, List.replicate_succ]

/-! ## Byte-level xor identities and burst patterns (finite checks) -/

set_option maxRecDepth 4096 in
theorem xorW0 : ∀ a, a < 256 → ∀ y, y < 64 → a ^^^ (y * 4 + a % 4) = (a / 4 ^^^ y) * 4 := by
  decide

set_option maxRecDepth 4096 in
theorem xorW1 : ∀ a, a < 256 → ∀ x, x < 4 → a ^^^ (a / 4 * 4 + x) = a % 4 ^^^ x := by
  decide

set_option maxRecDepth 4096 in
theorem xorW2 : ∀ b, b < 256 → ∀ y, y < 16 → b ^^^ (y * 16 + b % 16) = (b / 16 ^^^ y) * 16 := by
  decide

theorem xorW3 : ∀ u, u < 64 → ∀ v, v < 64 → u / 16 ^^^ v / 16 = (u ^^^ v) / 16 := by decide

theorem xorW4 : ∀ u, u < 64 → ∀ v, v < 64 → u % 16 ^^^ v % 16 = (u ^^^ v) % 16 := by decide

theorem xorW5 : ∀ u, u < 64 → ∀ v, v < 64 → u / 4 ^^^ v / 4 = (u ^^^ v) / 4 := by decide

theorem xorW6 : ∀ u, u < 64 → ∀ v, v < 64 → u % 4 ^^^ v % 4 = (u ^^^ v) % 4 := by decide

set_option maxRecDepth 4096 in
theorem xorW7 : ∀ b, b < 256 → ∀ y, y < 16 → b ^^^ (b / 16 * 16 + y) = b % 16 ^^^ y := by
  decide

set_option maxRecDepth 4096 in
theorem xorW8 : ∀ c, c < 256 → ∀ z, z < 4 → c ^^^ (z * 64 + c % 64) = (c / 64 ^^^ z) * 64 := by
  decide

set_option maxRecDepth 4096 in
theorem xorW9 : ∀ c, c < 256 → ∀ y, y < 64 → c ^^^ (c / 64 * 64 + y) = c % 64 ^^^ y := by
  decide

theorem burstP1 : ∀ d, d < 64 → d ≠ 0 → crc8Digest 0 [d * 4, 0, 0] ≠ 0 := by decide

theorem burstP2 : ∀ d, d < 64 → d ≠ 0 → crc8Digest 0 [d / 16, d % 16 * 16, 0] ≠ 0 := by
  decide

theorem burstP3 : ∀ d, d < 64 → d ≠ 0 → crc8Digest 0 [0, d / 4, d % 4 * 64] ≠ 0 := by
  decide

theorem burstP4 : ∀ d, d < 64 → d ≠ 0 → crc8Digest 0 [0, 0, d] ≠ 0 := by decide

theorem burstP5 : ∀ d, d < 64 → d ≠ 0 → crc8Digest 0 [d * 4, 0] ≠ 0 := by decide

theorem burstP6 : ∀ d, d < 64 → d ≠ 0 → crc8Digest 0 [d / 16, d % 16 * 16] ≠ 0 := by decide

theorem burstP7 : ∀ d, d < 64 → d ≠ 0 → d % 4 = 0 → crc8Digest 0 [0, d / 4] ≠ 0 := by
  decide

theorem burstP8 : ∀ d, d < 64 → d ≠ 0 → crc8Digest 0 [d * 4] ≠ 0 := by decide

theorem burstP9 : ∀ d, d < 64 → d ≠ 0 → d % 16 = 0 → crc8Digest 0 [d / 16] ≠ 0 := by
  decide

theorem toNat_ofNat_aByte : ∀ m, m < 64 → (Char.ofNat (aByte m)).toNat = aByte m := by
  decide

theorem flip_byte_utf8 : ∀ m, m < 64 → ∀ k, k < 7 →
    utf8Bytes (Char.ofNat (aByte m ^^^ (1 <<< k))) = [aByte m ^^^ (1 <<< k)] := by
  decide

theorem flip_byte_ne : ∀ m, m < 64 → ∀ k, k < 7 → aByte m ^^^ (1 <<< k) ≠ aByte m := by
  decide

theorem flip_byte_lt : ∀ m, m < 64 → ∀ k, k < 7 → aByte m ^^^ (1 <<< k) < 256 := by
  decide

/-! ## Decoding a body with one modified symbol -/

theorem xor_ne_zero_of_ne {a b : Nat} (h : a ≠ b) : a ^^^ b ≠ 0 :=
  fun hz => h (Nat.xor_eq_zero.1 hz)

theorem xor_lt_64 {a b : Nat} (ha : a < 64) (hb : b < 64) : a ^^^ b < 64 := by
  have h : a ^^^ b < 2 ^ 6 :=
    Nat.xor_lt_two_pow (by norm_num; omega) (by norm_num; omega)
  norm_num at h
  exact h

theorem flip_group1 (a : Nat) (ha : a < 256) (i nb off : Nat) (hi : i < 2)
    (hne : nb ≠ (encodeBytes [a]).getD i 0) :
    (∃ e, decodeGroups ((encodeBytes [a]).set i nb) off = .error e) ∨
    (∃ out, decodeGroups ((encodeBytes [a]).set i nb) off = .ok out ∧
      out.length = 1 ∧ (∀ x ∈ out, x < 256) ∧ crc8Digest 0 (xorList [a] out) ≠ 0) := by
  have hE : encodeBytes [a] = [aByte (a / 4), aByte (a % 4 * 16)] := rfl
  rcases i with _ | _ | i
  · -- first symbol replaced
    rw [hE] at hne ⊢
    rcases hm : b64MorselByte nb with _ | m2
    · exact Or.inl ⟨.InvalidByte off nb, by simp [decodeGroups, hm]⟩
    · obtain ⟨hm64, hmB⟩ := morsel_inv nb m2 hm
      have hmo : b64MorselByte (aByte (a % 4 * 16)) = some (a % 4 * 16) :=
        morsel_aByte _ (by omega)
      have hdec : decodeGroups [nb, aByte (a % 4 * 16)] off = .ok [m2 * 4 + a % 4] := by
        rw [decodeGroups, hm, hmo]
        simp [Nat.mul_mod_left]
      have hm2ne : m2 ≠ a / 4 := by
        intro heq
        apply hne
        rw [← hmB, heq]
        rfl
      refine Or.inr ⟨[m2 * 4 + a % 4], hdec, rfl, by intro x hx; simp at hx; omega, ?_⟩
      rw [show xorList [a] [m2 * 4 + a % 4] = [a ^^^ (m2 * 4 + a % 4)] from rfl,
        xorW0 a ha m2 hm64]
      exact burstP8 _ (xor_lt_64 (by omega) hm64)
        (xor_ne_zero_of_ne (fun hq => hm2ne hq.symm))
  · -- second (last) symbol replaced
    rw [hE] at hne ⊢
    have hmo : b64MorselByte (aByte (a / 4)) = some (a / 4) := morsel_aByte _ (by omega)
    have hset : [aByte (a / 4), aByte (a % 4 * 16)].set 1 nb = [aByte (a / 4), nb] := rfl
    rw [hset]
    rcases hm : b64MorselByte nb with _ | m2
    · exact Or.inl ⟨.InvalidByte (off + 1) nb, by simp [decodeGroups, hmo, hm]⟩
    · obtain ⟨hm64, hmB⟩ := morsel_inv nb m2 hm
      by_cases hm16 : m2 % 16 = 0
      · have hdec : decodeGroups [aByte (a / 4), nb] off = .ok [a / 4 * 4 + m2 / 16] := by
          rw [decodeGroups, hmo, hm]
          simp [hm16]
        have hm2ne : m2 ≠ a % 4 * 16 := by
          intro heq
          apply hne
          rw [← hmB, heq]
          rfl
        have hd : (a % 4 * 16) ^^^ m2 ≠ 0 :=
          xor_ne_zero_of_ne (fun hq => hm2ne hq.symm)
        have hd64 : (a % 4 * 16) ^^^ m2 < 64 := xor_lt_64 (by omega) hm64
        have hd16 : ((a % 4 * 16) ^^^ m2) % 16 = 0 := by
          rw [← xorW4 _ (by omega) _ hm64, Nat.mul_mod_left, hm16]
          simp
        refine Or.inr ⟨[a / 4 * 4 + m2 / 16], hdec, rfl,
          by intro x hx; simp at hx; omega, ?_⟩
        rw [show xorList [a] [a / 4 * 4 + m2 / 16] = [a ^^^ (a / 4 * 4 + m2 / 16)] from rfl,
          xorW1 a ha (m2 / 16) (by omega),
          show a % 4 = a % 4 * 16 / 16 by omega,
          xorW3 _ (by omega) _ hm64]
        exact burstP9 _ hd64 hd hd16
      · exact Or.inl ⟨.InvalidLastSymbol (off + 1) nb,
          by rw [decodeGroups, hmo, hm]; simp [hm16]⟩
  · omega

theorem flip_group2 (a b : Nat) (ha : a < 256) (hb : b < 256) (i nb off : Nat)
    (hi : i < 3) (hne : nb ≠ (encodeBytes [a, b]).getD i 0) :
    (∃ e, decodeGroups ((encodeBytes [a, b]).set i nb) off = .error e) ∨
    (∃ out, decodeGroups ((encodeBytes [a, b]).set i nb) off = .ok out ∧
      out.length = 2 ∧ (∀ x ∈ out, x < 256) ∧ crc8Digest 0 (xorList [a, b] out) ≠ 0) := by
  have hE : encodeBytes [a, b]
      = [aByte (a / 4), aByte (a % 4 * 16 + b / 16), aByte (b % 16 * 4)] := rfl
  have hmo0 : b64MorselByte (aByte (a / 4)) = some (a / 4) := morsel_aByte _ (by omega)
  have hmo1 : b64MorselByte (aByte (a % 4 * 16 + b / 16)) = some (a % 4 * 16 + b / 16) :=
    morsel_aByte _ (by omega)
  have hmo2 : b64MorselByte (aByte (b % 16 * 4)) = some (b % 16 * 4) :=
    morsel_aByte _ (by omega)
  rcases i with _ | _ | _ | i
  · -- first symbol replaced
    rw [hE] at hne ⊢
    rcases hm : b64MorselByte nb with _ | m2
    · exact Or.inl ⟨.InvalidByte off nb, by simp [decodeGroups, hm]⟩
    · obtain ⟨hm64, hmB⟩ := morsel_inv nb m2 hm
      have hdec : decodeGroups [nb, aByte (a % 4 * 16 + b / 16), aByte (b % 16 * 4)] off
          = .ok [m2 * 4 + a % 4, b] := by
        rw [decodeGroups, hm, hmo1, hmo2]
        simp [Nat.mul_mod_left]
        constructor <;> omega
      have hm2ne : m2 ≠ a / 4 := by
        intro heq; apply hne; rw [← hmB, heq]; rfl
      refine Or.inr ⟨[m2 * 4 + a % 4, b], hdec, rfl,
        by intro x hx; simp at hx; rcases hx with hx | hx <;> omega, ?_⟩
      have hx : xorList [a, b] [m2 * 4 + a % 4, b] = [a ^^^ (m2 * 4 + a % 4), 0] := by
        simp [xorList]
      rw [hx, xorW0 a ha m2 hm64]
      exact burstP5 _ (xor_lt_64 (by omega) hm64)
        (xor_ne_zero_of_ne (fun hq => hm2ne hq.symm))
  · -- second symbol replaced
    rw [hE] at hne ⊢
    rcases hm : b64MorselByte nb with _ | m2
    · exact Or.inl ⟨.InvalidByte (off + 1) nb, by simp [decodeGroups, hmo0, hm]⟩
    · obtain ⟨hm64, hmB⟩ := morsel_inv nb m2 hm
      have hdec : decodeGroups [aByte (a / 4), nb, aByte (b % 16 * 4)] off
          = .ok [a / 4 * 4 + m2 / 16, m2 % 16 * 16 + b % 16] := by
        rw [decodeGroups, hmo0, hm, hmo2]
        simp [Nat.mul_mod_left]
      have hm2ne : m2 ≠ a % 4 * 16 + b / 16 := by
        intro heq; apply hne; rw [← hmB, heq]; rfl
      have hd : (a % 4 * 16 + b / 16) ^^^ m2 ≠ 0 :=
        xor_ne_zero_of_ne (fun hq => hm2ne hq.symm)
      have hd64 : (a % 4 * 16 + b / 16) ^^^ m2 < 64 := xor_lt_64 (by omega) hm64
      refine Or.inr ⟨[a / 4 * 4 + m2 / 16, m2 % 16 * 16 + b % 16], hdec, rfl,
        by intro x hx; simp at hx; rcases hx with hx | hx <;> omega, ?_⟩
      have hx : xorList [a, b] [a / 4 * 4 + m2 / 16, m2 % 16 * 16 + b % 16]
          = [((a % 4 * 16 + b / 16) ^^^ m2) / 16, ((a % 4 * 16 + b / 16) ^^^ m2) % 16 * 16] := by
        have h0 : a ^^^ (a / 4 * 4 + m2 / 16) = ((a % 4 * 16 + b / 16) ^^^ m2) / 16 := by
          rw [xorW1 a ha _ (by omega), ← xorW3 _ (by omega) _ hm64]
          congr 1
          omega
        have h1 : b ^^^ (m2 % 16 * 16 + b % 16) = ((a % 4 * 16 + b / 16) ^^^ m2) % 16 * 16 := by
          rw [xorW2 b hb _ (by omega), ← xorW4 _ (by omega) _ hm64]
          congr 2
          omega
        simp [xorList, h0, h1]
      rw [hx]
      exact burstP6 _ hd64 hd
  · -- third (last) symbol replaced
    rw [hE] at hne ⊢
    rcases hm : b64MorselByte nb with _ | m2
    · exact Or.inl ⟨.InvalidByte (off + 2) nb, by simp [decodeGroups, hmo0, hmo1, hm]⟩
    · obtain ⟨hm64, hmB⟩ := morsel_inv nb m2 hm
      by_cases hm4 : m2 % 4 = 0
      · have hdec : decodeGroups [aByte (a / 4), aByte (a % 4 * 16 + b / 16), nb] off
            = .ok [a, b / 16 * 16 + m2 / 4] := by
          rw [decodeGroups, hmo0, hmo1, hm]
          simp [hm4]
          omega
        have hm2ne : m2 ≠ b % 16 * 4 := by
          intro heq; apply hne; rw [← hmB, heq]; rfl
        have hd : (b % 16 * 4) ^^^ m2 ≠ 0 :=
          xor_ne_zero_of_ne (fun hq => hm2ne hq.symm)
        have hd64 : (b % 16 * 4) ^^^ m2 < 64 := xor_lt_64 (by omega) hm64
        have hd4 : ((b % 16 * 4) ^^^ m2) % 4 = 0 := by
          rw [← xorW6 _ (by omega) _ hm64, Nat.mul_mod_left, hm4]
          simp
        refine Or.inr ⟨[a, b / 16 * 16 + m2 / 4], hdec, rfl,
          by intro x hx; simp at hx; rcases hx with hx | hx <;> omega, ?_⟩
        have hx : xorList [a, b] [a, b / 16 * 16 + m2 / 4]
            = [0, ((b % 16 * 4) ^^^ m2) / 4] := by
          have h1 : b ^^^ (b / 16 * 16 + m2 / 4) = ((b % 16 * 4) ^^^ m2) / 4 := by
            rw [xorW7 b hb _ (by omega), ← xorW5 _ (by omega) _ hm64]
            congr 1
            omega
          simp [xorList, h1]
        rw [hx]
        exact burstP7 _ hd64 hd hd4
      · exact Or.inl ⟨.InvalidLastSymbol (off + 2) nb,
          by simp [decodeGroups, hmo0, hmo1, hm, hm4]⟩
  · omega

theorem flip_group4 (a b c : Nat) (rest : List Nat) (ha : a < 256) (hb : b < 256)
    (hc : c < 256) (hrest : ∀ x ∈ rest, x < 256) (i nb off : Nat) (hi : i < 4)
    (hne : nb ≠ (encodeBytes (a :: b :: c :: rest)).getD i 0) :
    (∃ e, decodeGroups ((encodeBytes (a :: b :: c :: rest)).set i nb) off = .error e) ∨
    (∃ out, decodeGroups ((encodeBytes (a :: b :: c :: rest)).set i nb) off = .ok out ∧
      out.length = rest.length + 3 ∧ (∀ x ∈ out, x < 256) ∧
      crc8Digest 0 (xorList (a :: b :: c :: rest) out) ≠ 0) := by
  have hE : encodeBytes (a :: b :: c :: rest)
      = aByte (a / 4) :: aByte (a % 4 * 16 + b / 16) ::
        aByte (b % 16 * 4 + c / 64) :: aByte (c % 64) :: encodeBytes rest := rfl
  have hmo0 : b64MorselByte (aByte (a / 4)) = some (a / 4) := morsel_aByte _ (by omega)
  have hmo1 : b64MorselByte (aByte (a % 4 * 16 + b / 16)) = some (a % 4 * 16 + b / 16) :=
    morsel_aByte _ (by omega)
  have hmo2 : b64MorselByte (aByte (b % 16 * 4 + c / 64)) = some (b % 16 * 4 + c / 64) :=
    morsel_aByte _ (by omega)
  have hmo3 : b64MorselByte (aByte (c % 64)) = some (c % 64) := morsel_aByte _ (by omega)
  have htail : decodeGroups (encodeBytes rest) (off + 4) = .ok rest :=
    decodeGroups_encodeBytes rest hrest (off + 4)
  rcases i with _ | _ | _ | _ | i
  · -- first symbol of the group replaced
    rw [hE] at hne ⊢
    rcases hm : b64MorselByte nb with _ | mp
    · exact Or.inl ⟨.InvalidByte off nb, by simp [decodeGroups, hm]⟩
    · obtain ⟨hm64, hmB⟩ := morsel_inv nb mp hm
      have hdec : decodeGroups (nb :: aByte (a % 4 * 16 + b / 16) ::
          aByte (b % 16 * 4 + c / 64) :: aByte (c % 64) :: encodeBytes rest) off
          = .ok ((mp * 4 + a % 4) :: b :: c :: rest) := by
        rw [decodeGroups, hm, hmo1, hmo2, hmo3, htail]
        simp only [List.cons_append, List.nil_append]
        refine congrArg Except.ok ?_
        simp only [List.cons.injEq, and_true, true_and]
        first
        | trivial
        | omega
      have hmpne : mp ≠ a / 4 := by
        intro heq; apply hne; rw [← hmB, heq]; rfl
      refine Or.inr ⟨(mp * 4 + a % 4) :: b :: c :: rest, hdec, by simp, ?_, ?_⟩
      · intro x hx
        simp only [List.mem_cons] at hx
        rcases hx with hx | hx | hx | hx
        · omega
        · omega
        · omega
        · exact hrest x hx
      · have hx : xorList (a :: b :: c :: rest) ((mp * 4 + a % 4) :: b :: c :: rest)
            = [(a / 4 ^^^ mp) * 4, 0, 0] ++ List.replicate rest.length 0 := by
          rw [xorList_cons, xorList_cons, xorList_cons, xorList_self,
            xorW0 a ha mp hm64, Nat.xor_self, Nat.xor_self]
          rfl
        rw [hx]
        exact crcH_append_zeros_ne _ _
          (burstP1 _ (xor_lt_64 (by omega) hm64)
            (xor_ne_zero_of_ne (fun hq => hmpne hq.symm)))
  · -- second symbol of the group replaced
    rw [hE] at hne ⊢
    rcases hm : b64MorselByte nb with _ | mp
    · exact Or.inl ⟨.InvalidByte (off + 1) nb, by simp [decodeGroups, hmo0, hm]⟩
    · obtain ⟨hm64, hmB⟩ := morsel_inv nb mp hm
      have hdec : decodeGroups (aByte (a / 4) :: nb ::
          aByte (b % 16 * 4 + c / 64) :: aByte (c % 64) :: encodeBytes rest) off
          = .ok ((a / 4 * 4 + mp / 16) :: (mp % 16 * 16 + b % 16) :: c :: rest) := by
        rw [decodeGroups, hmo0, hm, hmo2, hmo3, htail]
        simp only [List.cons_append, List.nil_append]
        refine congrArg Except.ok ?_
        simp only [List.cons.injEq, and_true, true_and]
        first
        | trivial
        | omega
      have hmpne : mp ≠ a % 4 * 16 + b / 16 := by
        intro heq; apply hne; rw [← hmB, heq]; rfl
      have hd : (a % 4 * 16 + b / 16) ^^^ mp ≠ 0 :=
        xor_ne_zero_of_ne (fun hq => hmpne hq.symm)
      have hd64 : (a % 4 * 16 + b / 16) ^^^ mp < 64 := xor_lt_64 (by omega) hm64
      refine Or.inr ⟨(a / 4 * 4 + mp / 16) :: (mp % 16 * 16 + b % 16) :: c :: rest, hdec,
        by simp, ?_, ?_⟩
      · intro x hx
        simp only [List.mem_cons] at hx
        rcases hx with hx | hx | hx | hx
        · omega
        · omega
        · omega
        · exact hrest x hx
      · have h0 : a ^^^ (a / 4 * 4 + mp / 16) = ((a % 4 * 16 + b / 16) ^^^ mp) / 16 := by
          rw [xorW1 a ha _ (by omega), ← xorW3 _ (by omega) _ hm64]
          congr 1
          omega
        have h1 : b ^^^ (mp % 16 * 16 + b % 16)
            = ((a % 4 * 16 + b / 16) ^^^ mp) % 16 * 16 := by
          rw [xorW2 b hb _ (by omega), ← xorW4 _ (by omega) _ hm64]
          congr 2
          omega
        have hx : xorList (a :: b :: c :: rest)
            ((a / 4 * 4 + mp / 16) :: (mp % 16 * 16 + b % 16) :: c :: rest)
            = [((a % 4 * 16 + b / 16) ^^^ mp) / 16,
               ((a % 4 * 16 + b / 16) ^^^ mp) % 16 * 16, 0]
              ++ List.replicate rest.length 0 := by
          rw [xorList_cons, xorList_cons, xorList_cons, xorList_self, h0, h1, Nat.xor_self]
          rfl
        rw [hx]
        exact crcH_append_zeros_ne _ _ (burstP2 _ hd64 hd)
  · -- third symbol of the group replaced
    rw [hE] at hne ⊢
    rcases hm : b64MorselByte nb with _ | mp
    · exact Or.inl ⟨.InvalidByte (off + 2) nb, by simp [decodeGroups, hmo0, hmo1, hm]⟩
    · obtain ⟨hm64, hmB⟩ := morsel_inv nb mp hm
      have hdec : decodeGroups (aByte (a / 4) :: aByte (a % 4 * 16 + b / 16) ::
          nb :: aByte (c % 64) :: encodeBytes rest) off
          = .ok (a :: (b / 16 * 16 + mp / 4) :: (mp % 4 * 64 + c % 64) :: rest) := by
        rw [decodeGroups, hmo0, hmo1, hm, hmo3, htail]
        simp only [List.cons_append, List.nil_append]
        refine congrArg Except.ok ?_
        simp only [List.cons.injEq, and_true, true_and]
        first
        | trivial
        | omega
      have hmpne : mp ≠ b % 16 * 4 + c / 64 := by
        intro heq; apply hne; rw [← hmB, heq]; rfl
      have hd : (b % 16 * 4 + c / 64) ^^^ mp ≠ 0 :=
        xor_ne_zero_of_ne (fun hq => hmpne hq.symm)
      have hd64 : (b % 16 * 4 + c / 64) ^^^ mp < 64 := xor_lt_64 (by omega) hm64
      refine Or.inr ⟨a :: (b / 16 * 16 + mp / 4) :: (mp % 4 * 64 + c % 64) :: rest, hdec,
        by simp, ?_, ?_⟩
      · intro x hx
        simp only [List.mem_cons] at hx
        rcases hx with hx | hx | hx | hx
        · omega
        · omega
        · omega
        · exact hrest x hx
      · have h1 : b ^^^ (b / 16 * 16 + mp / 4) = ((b % 16 * 4 + c / 64) ^^^ mp) / 4 := by
          rw [xorW7 b hb _ (by omega), ← xorW5 _ (by omega) _ hm64]
          congr 1
          omega
        have h2 : c ^^^ (mp % 4 * 64 + c % 64)
            = ((b % 16 * 4 + c / 64) ^^^ mp) % 4 * 64 := by
          rw [xorW8 c hc _ (by omega), ← xorW6 _ (by omega) _ hm64]
          congr 2
          omega
        have hx : xorList (a :: b :: c :: rest)
            (a :: (b / 16 * 16 + mp / 4) :: (mp % 4 * 64 + c % 64) :: rest)
            = [0, ((b % 16 * 4 + c / 64) ^^^ mp) / 4,
               ((b % 16 * 4 + c / 64) ^^^ mp) % 4 * 64]
              ++ List.replicate rest.length 0 := by
          rw [xorList_cons, xorList_cons, xorList_cons, xorList_self, h1, h2, Nat.xor_self]
          rfl
        rw [hx]
        exact crcH_append_zeros_ne _ _ (burstP3 _ hd64 hd)
  · -- fourth symbol of the group replaced
    rw [hE] at hne ⊢
    rcases hm : b64MorselByte nb with _ | mp
    · exact Or.inl ⟨.InvalidByte (off + 3) nb,
        by simp [decodeGroups, hmo0, hmo1, hmo2, hm]⟩
    · obtain ⟨hm64, hmB⟩ := morsel_inv nb mp hm
      have hdec : decodeGroups (aByte (a / 4) :: aByte (a % 4 * 16 + b / 16) ::
          aByte (b % 16 * 4 + c / 64) :: nb :: encodeBytes rest) off
          = .ok (a :: b :: (c / 64 * 64 + mp) :: rest) := by
        rw [decodeGroups, hmo0, hmo1, hmo2, hm, htail]
        simp only [List.cons_append, List.nil_append]
        refine congrArg Except.ok ?_
        simp only [List.cons.injEq, and_true, true_and]
        first
        | trivial
        | omega
      have hmpne : mp ≠ c % 64 := by
        intro heq; apply hne; rw [← hmB, heq]; rfl
      have hd : c % 64 ^^^ mp ≠ 0 :=
        xor_ne_zero_of_ne (fun hq => hmpne hq.symm)
      have hd64 : c % 64 ^^^ mp < 64 := xor_lt_64 (by omega) hm64
      refine Or.inr ⟨a :: b :: (c / 64 * 64 + mp) :: rest, hdec, by simp, ?_, ?_⟩
      · intro x hx
        simp only [List.mem_cons] at hx
        rcases hx with hx | hx | hx | hx
        · omega
        · omega
        · omega
        · exact hrest x hx
      · have h2 : c ^^^ (c / 64 * 64 + mp) = c % 64 ^^^ mp := xorW9 c hc mp hm64
        have hx : xorList (a :: b :: c :: rest) (a :: b :: (c / 64 * 64 + mp) :: rest)
            = [0, 0, c % 64 ^^^ mp] ++ List.replicate rest.length 0 := by
          rw [xorList_cons, xorList_cons, xorList_cons, xorList_self, h2,
            Nat.xor_self, Nat.xor_self]
          rfl
        rw [hx]
        exact crcH_append_zeros_ne _ _ (burstP4 _ hd64 hd)
  · omega

theorem decode_flip :
    ∀ (bs : List Nat), (∀ x ∈ bs, x < 256) →
    ∀ (i nb off : Nat), i < (encodeBytes bs).length → nb ≠ (encodeBytes bs).getD i 0 →
      (∃ e, decodeGroups ((encodeBytes bs).set i nb) off = .error e) ∨
      (∃ out, decodeGroups ((encodeBytes bs).set i nb) off = .ok out ∧
        out.length = bs.length ∧ (∀ x ∈ out, x < 256) ∧
        crc8Digest 0 (xorList bs out) ≠ 0) := by
  intro bs
  induction bs using encodeBytes.induct with
  | case1 =>
    intro _ i nb off hi _
    simp [encodeBytes] at hi
  | case2 a =>
    intro h i nb off hi hne
    exact flip_group1 a (h a (by simp)) i nb off (by simpa [encodeBytes, aByte] using hi) hne
  | case3 a b =>
    intro h i nb off hi hne
    exact flip_group2 a b (h a (by simp)) (h b (by simp)) i nb off
      (by simpa [encodeBytes, aByte] using hi) hne
  | case4 a b c rest ih =>
    intro h i nb off hi hne
    have ha : a < 256 := h a (by simp)
    have hb : b < 256 := h b (by simp)
    have hc : c < 256 := h c (by simp)
    have hrest : ∀ x ∈ rest, x < 256 := fun x hx => h x (by simp [hx])
    by_cases hi4 : i < 4
    · exact flip_group4 a b c rest ha hb hc hrest i nb off hi4 hne
    · obtain ⟨j, rfl⟩ : ∃ j, i = j + 4 := ⟨i - 4, by omega⟩
      have hmo0 : b64MorselByte (aByte (a / 4)) = some (a / 4) := morsel_aByte _ (by omega)
      have hmo1 : b64MorselByte (aByte (a % 4 * 16 + b / 16))
          = some (a % 4 * 16 + b / 16) := morsel_aByte _ (by omega)
      have hmo2 : b64MorselByte (aByte (b % 16 * 4 + c / 64))
          = some (b % 16 * 4 + c / 64) := morsel_aByte _ (by omega)
      have hmo3 : b64MorselByte (aByte (c % 64)) = some (c % 64) := morsel_aByte _ (by omega)
      have hset : (encodeBytes (a :: b :: c :: rest)).set (j + 4) nb
          = aByte (a / 4) :: aByte (a % 4 * 16 + b / 16) ::
            aByte (b % 16 * 4 + c / 64) :: aByte (c % 64) ::
            ((encodeBytes rest).set j nb) := rfl
      have hilen : j < (encodeBytes rest).length := by
        rw [show encodeBytes (a :: b :: c :: rest)
            = aByte (a / 4) :: aByte (a % 4 * 16 + b / 16) ::
              aByte (b % 16 * 4 + c / 64) :: aByte (c % 64) :: encodeBytes rest from rfl]
          at hi
        simp only [List.length_cons] at hi
        omega
      have hne2 : nb ≠ (encodeBytes rest).getD j 0 := hne
      rcases ih hrest j nb (off + 4) hilen hne2 with ⟨e, herr⟩ | ⟨out, hok, hlen, hbound, hcrc⟩
      · refine Or.inl ⟨e, ?_⟩
        rw [hset, decodeGroups, hmo0, hmo1, hmo2, hmo3, herr]
      · refine Or.inr ⟨a :: b :: c :: out, ?_, ?_, ?_, ?_⟩
        · rw [hset, decodeGroups, hmo0, hmo1, hmo2, hmo3, hok]
          simp only [List.cons_append, List.nil_append]
          refine congrArg Except.ok ?_
          simp only [List.cons.injEq, and_true, true_and]
          first
          | trivial
          | omega
        · simp [hlen]
        · intro x hx
          simp only [List.mem_cons] at hx
          rcases hx with hx | hx | hx | hx
          · omega
          · omega
          · omega
          · exact hbound x hx
        · rw [xorList_cons, xorList_cons, xorList_cons, Nat.xor_self, Nat.xor_self,
            Nat.xor_self, crc8Digest_zero_cons, crc8Digest_zero_cons, crc8Digest_zero_cons]
          exact hcrc

/-! ## A corrupted checksum never matches -/

theorem xorList_append_one :
    ∀ (A B : List Nat) (x y : Nat), A.length = B.length →
      xorList (A ++ [x]) (B ++ [y]) = xorList A B ++ [x ^^^ y] := by
  intro A
  induction A with
  | nil =>
    intro B x y hlen
    have hB : B = [] := List.eq_nil_of_length_eq_zero (by simpa using hlen.symm)
    subst hB
    rfl
  | cons a A ih =>
    intro B x y hlen
    cases B with
    | nil => simp at hlen
    | cons b B =>
      rw [List.cons_append, List.cons_append, xorList_cons, xorList_cons,
        ih B x y (by simpa using hlen), List.cons_append]

theorem checksum_detect (tag : String) (D E : List Nat) (hlen : D.length = E.length)
    (hne : D ≠ []) (hcrc : crc8Digest 0 (xorList D E) ≠ 0)
    (hmatch : D.getLastD 0 = calc_checksum tag D.dropLast) :
    ¬ (E.getLastD 0 = calc_checksum tag E.dropLast) := by
  intro hEm
  apply hcrc
  have hEne : E ≠ [] := by
    intro h
    rw [h] at hlen
    simp at hlen
    exact hne (by rw [hlen])
  have hD := dropLast_getLastD D hne
  have hE2 := dropLast_getLastD E hEne
  have hdl : D.dropLast.length = E.dropLast.length := by
    rw [List.length_dropLast, List.length_dropLast, hlen]
  have hxor : D.getLastD 0 ^^^ E.getLastD 0
      = crc8Digest 0 (xorList D.dropLast E.dropLast) := by
    rw [hmatch, hEm, calc_checksum, calc_checksum, hdl, xor_swap4, Nat.xor_self,
      Nat.xor_zero, ← Nat.xor_self (crc8Digest 0 (strBytes tag)),
      crc8Digest_linear D.dropLast E.dropLast _ _ hdl, Nat.xor_self]
  have hsplit : xorList D E
      = xorList D.dropLast E.dropLast ++ [D.getLastD 0 ^^^ E.getLastD 0] := by
    conv_lhs => rw [← hD, ← hE2]
    exact xorList_append_one _ _ _ _ hdl
  rw [hsplit,
    show crc8Digest 0 (xorList D.dropLast E.dropLast ++ [D.getLastD 0 ^^^ E.getLastD 0])
      = crc8UpdateByte (crc8Digest 0 (xorList D.dropLast E.dropLast))
          (D.getLastD 0 ^^^ E.getLastD 0) from List.foldl_append ..,
    hxor, crc8UpdateByte, Nat.xor_self]
  decide

theorem utf8ListBytes_map (l : List Nat) (h : ∀ x ∈ l, utf8Bytes (Char.ofNat x) = [x]) :
    utf8ListBytes (l.map Char.ofNat) = l := by
  induction l with
  | nil => rfl
  | cons x xs ih =>
    show utf8Bytes (Char.ofNat x) ++ utf8ListBytes (xs.map Char.ofNat) = x :: xs
    rw [h x (by simp), ih (fun y hy => h y (by simp [hy]))]
    rfl

theorem getD_lt (l : List Nat) (i d : Nat) (h : i < l.length) : l.getD i d = l[i] := by
  rw [List.getD_eq_getElem?_getD, List.getElem?_eq_getElem h]
  rfl

/-- Claim C6: flipping any single bit (bits 0–6; a bit-7 flip leaves the
ASCII plane, so the result is not a character of a string) of any character
of the base64 body of a canonical string and re-parsing always fails:
either base64 decoding fails with a classified error, or the checksum
comparison fails with `InvalidChecksum`.  The flipped string is never
silently accepted, so no different valid value can be returned.  The
"no-op padding bit" exception of the claim never arises: the decoder
checks the discarded bits of the final symbol, so a flip there is
`InvalidLastSymbol`. -/
theorem claim_C6_bitflip (t : String) (p : List Nat) (i k : Nat)
    (ht : is_safe_base64_tag t = true) (hp : ∀ x ∈ p, x < 256)
    (hi : i < (bodyChars ⟨t, p, calc_checksum t p⟩).length) (hk : k < 7) :
    ∃ e, parse (flipString ⟨t, p, calc_checksum t p⟩ i k) = some (.error e) ∧
      (e = .InvalidChecksum ∨ e = .InvalidLength ∨
        (∃ o b2, e = .InvalidByte o b2) ∨ ∃ o b2, e = .InvalidLastSymbol o b2) := by
  have hcs : calc_checksum t p < 256 := calc_checksum_lt t p
  have hallD : ∀ x ∈ p ++ [calc_checksum t p], x < 256 := by
    intro x hx
    rcases List.mem_append.1 hx with hx | hx
    · exact hp x hx
    · simp at hx; omega
  have hDne : p ++ [calc_checksum t p] ≠ [] := by simp
  have hbody : bodyChars ⟨t, p, calc_checksum t p⟩
      = (encodeBytes (p ++ [calc_checksum t p])).map Char.ofNat := rfl
  have hiE : i < (encodeBytes (p ++ [calc_checksum t p])).length := by
    rw [hbody, List.length_map] at hi
    exact hi
  have hmem : (encodeBytes (p ++ [calc_checksum t p])).getD i 0
      ∈ encodeBytes (p ++ [calc_checksum t p]) := by
    rw [getD_lt _ i 0 hiE]
    exact List.getElem_mem _
  obtain ⟨m, hm64, hEi⟩ := encodeBytes_alpha _ hallD _ hmem
  have hchar : (bodyChars ⟨t, p, calc_checksum t p⟩).getD i 'A' = Char.ofNat (aByte m) := by
    rw [hbody, List.getD_eq_getElem?_getD,
      List.getElem?_eq_getElem (by rw [List.length_map]; exact hiE), Option.getD_some,
      List.getElem_map, ← getD_lt _ i 0 hiE, hEi]
  have hflipchar : flipBitChar ((bodyChars ⟨t, p, calc_checksum t p⟩).getD i 'A') k
      = Char.ofNat (aByte m ^^^ (1 <<< k)) := by
    rw [hchar, flipBitChar, toNat_ofNat_aByte m hm64]
  have hfs : flipString ⟨t, p, calc_checksum t p⟩ i k
      = ⟨t.data ++ '~' ::
          ((encodeBytes (p ++ [calc_checksum t p])).set i (aByte m ^^^ (1 <<< k))).map
            Char.ofNat⟩ := by
    rw [flipString, hflipchar, hbody, List.map_set]
  have hutf8 : utf8ListBytes
      (((encodeBytes (p ++ [calc_checksum t p])).set i (aByte m ^^^ (1 <<< k))).map
        Char.ofNat)
      = (encodeBytes (p ++ [calc_checksum t p])).set i (aByte m ^^^ (1 <<< k)) := by
    apply utf8ListBytes_map
    intro x hx
    rcases List.mem_or_eq_of_mem_set hx with hx | rfl
    · obtain ⟨m2, hm2, rfl⟩ := encodeBytes_alpha _ hallD x hx
      exact utf8_ofNat_aByte m2 hm2
    · exact flip_byte_utf8 m hm64 k hk
  have hsetne : ((encodeBytes (p ++ [calc_checksum t p])).set i
      (aByte m ^^^ (1 <<< k))).map Char.ofNat ≠ [] := by
    simp [encodeBytes_eq_nil]
  have hlen4 : ¬ (((encodeBytes (p ++ [calc_checksum t p])).set i
      (aByte m ^^^ (1 <<< k))).length % 4 = 1) := by
    rw [List.length_set]
    exact length_encodeBytes_mod _
  have hne2 : aByte m ^^^ (1 <<< k) ≠ (encodeBytes (p ++ [calc_checksum t p])).getD i 0 := by
    rw [hEi]
    exact flip_byte_ne m hm64 k hk
  have hsafe : is_safe_base64_tag (⟨t.data⟩ : String) = true := by
    rw [string_eta]
    exact ht
  have hnodelim := safe_tag_no_delim t ht
  rcases decode_flip (p ++ [calc_checksum t p]) hallD i (aByte m ^^^ (1 <<< k)) 0 hiE hne2
    with ⟨e, herr⟩ | ⟨out, hok, hlen, hbound, hcrc⟩
  · cases e with
    | InvalidByte o b2 =>
      refine ⟨.InvalidByte o b2, ?_, Or.inr (Or.inr (Or.inl ⟨o, b2, rfl⟩))⟩
      rw [hfs, parse_decode_error t.data _ hnodelim hsafe hsetne _
        (by rw [hutf8, decode_raw, decode_config, if_neg hlen4, herr])]
    | InvalidLength =>
      refine ⟨.InvalidLength, ?_, Or.inr (Or.inl rfl)⟩
      rw [hfs, parse_decode_error t.data _ hnodelim hsafe hsetne _
        (by rw [hutf8, decode_raw, decode_config, if_neg hlen4, herr])]
    | InvalidLastSymbol o b2 =>
      refine ⟨.InvalidLastSymbol o b2, ?_, Or.inr (Or.inr (Or.inr ⟨o, b2, rfl⟩))⟩
      rw [hfs, parse_decode_error t.data _ hnodelim hsafe hsetne _
        (by rw [hutf8, decode_raw, decode_config, if_neg hlen4, herr])]
  · have houtne : out ≠ [] := by
      intro h0
      rw [h0] at hlen
      simp at hlen
    have hmatch : (p ++ [calc_checksum t p]).getLastD 0
        = calc_checksum t (p ++ [calc_checksum t p]).dropLast := by
      rw [List.getLastD_concat, List.dropLast_concat]
    have hmm := checksum_detect t (p ++ [calc_checksum t p]) out hlen.symm hDne hcrc hmatch
    refine ⟨.InvalidChecksum, ?_, Or.inl rfl⟩
    rw [hfs, parse_decode_ok t.data _ hnodelim hsafe hsetne out houtne
      (by rw [hutf8, decode_raw, decode_config, if_neg hlen4, hok]), string_eta, if_neg hmm]

theorem claim_C6_bitflip_witness :
    ∃ e, parse (flipString ⟨"TAG", [102], calc_checksum "TAG" [102]⟩ 1 0)
        = some (.error e) ∧
      (e = .InvalidChecksum ∨ e = .InvalidLength ∨
        (∃ o b2, e = .InvalidByte o b2) ∨ ∃ o b2, e = .InvalidLastSymbol o b2) :=
  claim_C6_bitflip "TAG" [102] 1 0 (by decide) (by decide) (by decide) (by decide)

end TB64
